import Mathlib

/-!
Verification development for the LongWeave pipeline engine
(`core/pipeline.py`): record store / stage-log state loaders, the
safe-rewrite and merge operations, the stage workers and the hierarchical
metrics aggregator, embedded shallowly in Lean.

File contents are modelled at the JSON-lines level of abstraction: a file
is a list of lines, each line either a parsed record object or `junk`
(a malformed / non-object line, which every reader in the source skips).
Blank lines are skipped by every reader before parsing and are therefore
not represented.
-/

namespace LongWeave

/-- JSON values one level inside an object, as inspected by the pipeline
(the code never looks deeper than one level into `evaluation_results`);
arrays and nested objects are abstracted to their Python truthiness. -/
inductive JLeaf where
  | lnull
  | lbool (b : Bool)
  | lnum (q : ℚ)
  | lstr (s : String)
  | lother (nonempty : Bool)
deriving DecidableEq, Repr

/-- Top-level JSON values of a record field. Objects carry their entries;
arrays and deeper nesting are abstracted to truthiness (`jother`). -/
inductive JVal where
  | jnull
  | jbool (b : Bool)
  | jnum (q : ℚ)
  | jstr (s : String)
  | jobj (fields : List (String × JLeaf))
  | jother (nonempty : Bool)
deriving DecidableEq, Repr

/-- Python truthiness of a leaf value. -/
def JLeaf.truthy : JLeaf → Bool
  | .lnull => false
  | .lbool b => b
  | .lnum q => decide (q ≠ 0)
  | .lstr s => decide (s ≠ "")
  | .lother ne => ne

/-- Python truthiness of a top-level value. -/
def JVal.truthy : JVal → Bool
  | .jnull => false
  | .jbool b => b
  | .jnum q => decide (q ≠ 0)
  | .jstr s => decide (s ≠ "")
  | .jobj fields => decide (fields ≠ [])
  | .jother ne => ne

/-- Lookup in a JSON object, last occurrence of the key winning
(as `json.loads` keeps the last duplicate key); `dict.get` semantics. -/
def dictGet (fields : List (String × JLeaf)) (k : String) : Option JLeaf :=
  fields.foldl (fun acc kv => if kv.1 = k then some kv.2 else acc) none

/-- One pipeline record, i.e. one parsed JSON-line object.
For `answer`, `prompt` and the duration fields, `none` stands for
"key absent or JSON null" (indistinguishable through Python's `dict.get`).
For `evaluation_results`, `none` means the key is ABSENT while
`some .jnull` means the key is present with value null: `_parse_eval`
tests `"evaluation_results" in item`, which distinguishes the two.
`sample_id` uses the empty string for "absent, null or empty", all of
which are falsy for the `if not item_id` guards. `task_path` models
`item.get('task_config', \x7b\x7d).get('task_path')`. `extraFields` is an
opaque stand-in for all remaining JSON fields (metadata, source,
eval_args, ...), which the pipeline carries around untouched. -/
structure Record where
  sample_id : String
  prompt : Option JVal := none
  answer : Option JVal := none
  evaluation_results : Option JVal := none
  task : String := ""
  task_path : Option String := none
  inference_duration_sec : Option JVal := none
  evaluation_duration_sec : Option JVal := none
  extraFields : String := ""
deriving DecidableEq, Repr

/-- Sentinel prompt written by `generate_prompts` when prompt generation
raised, and tested verbatim by the inference loader and worker. -/
def promptFailedStr : String := "ERROR: Prompt generation failed"

/-- Python `str.startswith`, implemented over the character lists so that
it evaluates by kernel reduction. -/
def strStartsWith (s pre : String) : Bool := pre.data.isPrefixOf s.data

/-- Predicate `is_error` of `_parse_infer`: the answer is a string with the
reserved prefix. Non-strings never count (guarded by `isinstance`). -/
def isErrorAnswer : Option JVal → Bool
  | some (.jstr s) => strStartsWith s "ERROR:"
  | _ => false

/-- Predicate `is_valid_answer` of `_parse_infer` (and `has_valid_answer`
of `_load_for_evaluation`): `answer is not None and answer != "" and not
is_error`. Any non-null non-string value compares unequal to `""` in
Python and is therefore valid. -/
def isValidAnswer : Option JVal → Bool
  | none => false
  | some .jnull => false
  | some (.jstr s) => decide (s ≠ "") && !(strStartsWith s "ERROR:")
  | some _ => true

/-- Predicate `is_valid_eval` of `_parse_eval`: `isinstance(eval_results,
dict) and not eval_results.get("error")` (a falsy error value still
counts as valid, faithfully to Python truthiness). -/
def isValidEval : Option JVal → Bool
  | some (.jobj fs) =>
    match dictGet fs "error" with
    | some v => !v.truthy
    | none => true
  | _ => false

/-- Predicate `is_eval_error` of `_load_for_evaluation`:
`isinstance(eval_results, dict) and eval_results.get("error")`. -/
def isEvalError : Option JVal → Bool
  | some (.jobj fs) =>
    match dictGet fs "error" with
    | some v => v.truthy
    | none => false
  | _ => false

/-- One line of a JSON-lines file: a record object, or a line every
reader skips (malformed JSON, or a JSON value that is not an object). -/
inductive Line where
  | junk
  | obj (r : Record)
deriving DecidableEq, Repr

/-- Record objects of a list of lines. -/
def recsOf (lines : List Line) : List Record :=
  lines.filterMap fun l => match l with | .junk => none | .obj r => some r

/-- Serialization of a record list to file lines (JSON-lines body). -/
def linesOf (data : List Record) : List Line := data.map Line.obj

/-- Lookup in an insertion-ordered association list (Python dict read). -/
def getRec : List (String × Record) → String → Option Record
  | [], _ => none
  | p :: ps, k => if p.1 = k then some p.2 else getRec ps k

/-- Assignment in an insertion-ordered association list (Python dict
write): an existing key keeps its position, a new key is appended. -/
def setRec : List (String × Record) → String → Record → List (String × Record)
  | [], k, v => [(k, v)]
  | p :: ps, k, v => if p.1 = k then (k, v) :: ps else p :: setRec ps k v

/-- In-memory loader state: the `sample_id -> record` map (insertion
ordered, as a Python dict) plus the set of ids currently recorded as
validly done for the stage (`processed_ids` / `evaluated_ids`). -/
structure LoadState where
  map : List (String × Record)
  done : Finset String

/-- Replay of one line by `_parse_infer`: items without id are skipped;
otherwise the log entry fully overrides the map entry, and validity of
the (new) answer is recorded, a now-invalid answer retracting a
previously recorded validity. -/
def parseInfer (st : LoadState) (l : Line) : LoadState :=
  match l with
  | .junk => st
  | .obj item =>
    if item.sample_id = "" then st
    else
      { map := setRec st.map item.sample_id item
        done :=
          if isValidAnswer item.answer then insert item.sample_id st.done
          else st.done.erase item.sample_id }

/-- Replay of one line by `_parse_eval`: items without id are skipped; a
line for an id already in the map only overwrites `evaluation_results`
(and only when that key is present in the line), every other field of
the existing entry being preserved; a first line for an id enters whole.
Validity of the resulting `evaluation_results` is then recorded
(`parseEval` below). -/
def evalMergeRec (existing : Option Record) (item : Record) : Record :=
  match existing with
  | some old =>
    if item.evaluation_results.isSome then
      { old with evaluation_results := item.evaluation_results }
    else old
  | none => item

def parseEval (st : LoadState) (l : Line) : LoadState :=
  match l with
  | .junk => st
  | .obj item =>
    if item.sample_id = "" then st
    else
      { map := setRec st.map item.sample_id
          (evalMergeRec (getRec st.map item.sample_id) item)
        done :=
          if isValidEval (evalMergeRec (getRec st.map item.sample_id) item).evaluation_results
          then insert item.sample_id st.done
          else st.done.erase item.sample_id }

/-- Initial loader state. -/
def initState : LoadState := { map := [], done := ∅ }

/-- Replay for inference: record store lines first, then the inference
stage log lines (part of `_load_and_prepare_inference_tasks`). -/
def inferLoadSt (mainLines logLines : List Line) : LoadState :=
  (mainLines ++ logLines).foldl parseInfer initState

/-- Replay for evaluation: record store lines first, then the evaluation
stage log lines (part of `_load_for_evaluation`). -/
def evalLoadSt (mainLines logLines : List Line) : LoadState :=
  (mainLines ++ logLines).foldl parseEval initState

/-- Value of the hard-coded flag `retry_errors = True` in
`_load_and_prepare_inference_tasks` (pipeline.py line 162). -/
def retryErrorsDefault : Bool := true

/-- Value of the hard-coded flag `retry_eval_errors = False` in
`_load_for_evaluation` (pipeline.py line 358). -/
def retryEvalErrorsDefault : Bool := false

/-- Task-identification loop of `_load_and_prepare_inference_tasks`,
parameterized by the retry flag: an item needs inference when it is not
recorded as validly answered, its error status passes the retry policy,
and its prompt did not itself fail to generate. -/
def inferTasksWith (retryErrors : Bool) (st : LoadState) : List Record :=
  (st.map.filter fun p =>
    !(decide (p.1 ∈ st.done)) &&
    (!isErrorAnswer p.2.answer || retryErrors) &&
    !(decide (p.2.prompt = some (.jstr promptFailedStr)))).map Prod.snd

/-- Task identification for inference at the source's flag value. -/
def inferTasks (st : LoadState) : List Record :=
  inferTasksWith retryErrorsDefault st

/-- Task-identification loop of `_load_for_evaluation`, parameterized by
the retry flag: an item needs evaluation when it has a valid answer, is
not recorded as validly evaluated, and its eval-error status passes the
retry policy. -/
def evalTasksWith (retryEvalErrors : Bool) (st : LoadState) : List Record :=
  (st.map.filter fun p =>
    isValidAnswer p.2.answer &&
    !(decide (p.1 ∈ st.done)) &&
    (!isEvalError p.2.evaluation_results || retryEvalErrors)).map Prod.snd

/-- Task identification for evaluation at the source's flag value. -/
def evalTasks (st : LoadState) : List Record :=
  evalTasksWith retryEvalErrorsDefault st

/-! Specification-shaped replay functions, used as refinement targets for
the loader-map characterizations. -/

/-- Per-id replay step following the spec's words for the inference
loader: each line carrying the id fully overwrites the prior value. -/
def stepLast (id : String) (acc : Option Record) (l : Line) : Option Record :=
  match l with
  | .junk => acc
  | .obj r => if r.sample_id = id then some r else acc

/-- Record assigned to a sample id by a full-overwrite replay: exactly the
record of the last line containing that id (none for the empty id, which
every reader skips). -/
def specLastRecord (lines : List Line) (id : String) : Option Record :=
  if id = "" then none else lines.foldl (stepLast id) none

/-- Per-id replay step for the evaluation loader: the first line carrying
the id enters whole, and each later line carrying the id overwrites only
the `evaluation_results` field, and only when that key is present. -/
def stepEvalSpec (id : String) (acc : Option Record) (l : Line) : Option Record :=
  match l with
  | .junk => acc
  | .obj r =>
    if r.sample_id = id then
      match acc with
      | none => some r
      | some base =>
        if r.evaluation_results.isSome then
          some { base with evaluation_results := r.evaluation_results }
        else some base
    else acc

/-- Record assigned to a sample id by the evaluation-style replay. -/
def specEvalRecord (lines : List Line) (id : String) : Option Record :=
  if id = "" then none else lines.foldl (stepEvalSpec id) none

/-! Association-list lemmas. -/

theorem getRec_setRec_self (m : List (String × Record)) (k : String) (v : Record) :
    getRec (setRec m k v) k = some v := by
  induction m with
  | nil => simp [setRec, getRec]
  | cons p ps ih =>
    by_cases h : p.1 = k
    · simp [setRec, h, getRec]
    · simp [setRec, h, getRec, ih]

theorem getRec_setRec_ne (m : List (String × Record)) (k k' : String) (v : Record)
    (h : k' ≠ k) : getRec (setRec m k v) k' = getRec m k' := by
  induction m with
  | nil => simp [setRec, getRec, Ne.symm h]
  | cons p ps ih =>
    by_cases hp : p.1 = k
    · subst hp
      simp [setRec, getRec, Ne.symm h]
    · simp only [setRec, if_neg hp, getRec]
      by_cases hp' : p.1 = k'
      · simp [hp']
      · simp [hp', ih]

theorem mem_setRec {m : List (String × Record)} {k : String} {v : Record}
    {p : String × Record} (hp : p ∈ setRec m k v) : p = (k, v) ∨ p ∈ m := by
  induction m with
  | nil => simpa [setRec] using hp
  | cons q qs ih =>
    by_cases h : q.1 = k
    · simp only [setRec, if_pos h, List.mem_cons] at hp
      rcases hp with h1 | h2
      · exact Or.inl h1
      · exact Or.inr (List.mem_cons_of_mem _ h2)
    · simp only [setRec, if_neg h, List.mem_cons] at hp
      rcases hp with h1 | h2
      · exact Or.inr (h1 ▸ List.mem_cons_self _ _)
      · rcases ih h2 with h3 | h4
        · exact Or.inl h3
        · exact Or.inr (List.mem_cons_of_mem _ h4)

theorem getRec_some_mem {m : List (String × Record)} {k : String} {r : Record}
    (h : getRec m k = some r) : (k, r) ∈ m := by
  induction m with
  | nil => simp [getRec] at h
  | cons p ps ih =>
    by_cases hp : p.1 = k
    · simp only [getRec, if_pos hp, Option.some.injEq] at h
      subst h
      exact hp ▸ (Prod.mk.eta ▸ List.mem_cons_self _ _)
    · simp only [getRec, if_neg hp] at h
      exact List.mem_cons_of_mem _ (ih h)

theorem keys_setRec (m : List (String × Record)) (k : String) (v : Record) :
    (setRec m k v).map Prod.fst =
      if k ∈ m.map Prod.fst then m.map Prod.fst else m.map Prod.fst ++ [k] := by
  induction m with
  | nil => simp [setRec]
  | cons p ps ih =>
    by_cases h : p.1 = k
    · simp [setRec, h]
    · have : ¬ k = p.1 := fun h' => h h'.symm
      simp only [setRec, if_neg h, List.map_cons, List.mem_cons, this, false_or]
      by_cases hk : k ∈ ps.map Prod.fst
      · simp [ih, hk]
      · simp [ih, hk]

theorem nodupKeys_setRec {m : List (String × Record)} (k : String) (v : Record)
    (h : (m.map Prod.fst).Nodup) : ((setRec m k v).map Prod.fst).Nodup := by
  rw [keys_setRec]
  by_cases hk : k ∈ m.map Prod.fst
  · simpa [hk] using h
  · rw [if_neg hk]
    refine List.Nodup.append h (List.nodup_singleton k) ?_
    intro a ha hb
    rw [List.mem_singleton] at hb
    exact hk (hb ▸ ha)

theorem mem_iff_getRec {m : List (String × Record)} (h : (m.map Prod.fst).Nodup)
    (p : String × Record) : p ∈ m ↔ getRec m p.1 = some p.2 := by
  induction m with
  | nil => simp [getRec]
  | cons q qs ih =>
    simp only [List.map_cons, List.nodup_cons] at h
    by_cases hq : q.1 = p.1
    · constructor
      · intro hp
        rcases List.mem_cons.mp hp with h1 | h2
        · simp [getRec, hq, h1]
        · exact absurd (hq ▸ List.mem_map_of_mem Prod.fst h2) h.1
      · intro hg
        simp only [getRec, if_pos hq, Option.some.injEq] at hg
        have : q = p := Prod.ext hq hg
        exact this ▸ List.mem_cons_self _ _
    · simp only [getRec, if_neg hq, List.mem_cons]
      rw [ih h.2]
      constructor
      · rintro (h1 | h2)
        · exact absurd (congrArg Prod.fst h1.symm) hq
        · exact h2
      · exact Or.inr

/-! Per-id characterization of the replay folds. -/

theorem parseInfer_getRec (st : LoadState) (l : Line) (id : String) (hid : id ≠ "") :
    getRec (parseInfer st l).map id = stepLast id (getRec st.map id) l := by
  cases l with
  | junk => rfl
  | obj item =>
    by_cases h0 : item.sample_id = ""
    · simp [parseInfer, h0, stepLast, Ne.symm hid]
    · by_cases hii : item.sample_id = id
      · subst hii
        simp [parseInfer, h0, stepLast, getRec_setRec_self]
      · have hg := getRec_setRec_ne st.map item.sample_id id item (Ne.symm hii)
        simp [parseInfer, h0, stepLast, hii, hg]

theorem foldl_parseInfer_getRec (lines : List Line) (st : LoadState) (id : String)
    (hid : id ≠ "") :
    getRec ((lines.foldl parseInfer st).map) id =
      lines.foldl (stepLast id) (getRec st.map id) := by
  induction lines generalizing st with
  | nil => rfl
  | cons l ls ih =>
    rw [List.foldl_cons, List.foldl_cons, ih, parseInfer_getRec st l id hid]

theorem parseEval_getRec (st : LoadState) (l : Line) (id : String) (hid : id ≠ "") :
    getRec (parseEval st l).map id = stepEvalSpec id (getRec st.map id) l := by
  cases l with
  | junk => rfl
  | obj item =>
    by_cases h0 : item.sample_id = ""
    · simp [parseEval, h0, stepEvalSpec, Ne.symm hid]
    · by_cases hii : item.sample_id = id
      · subst hii
        simp only [parseEval, if_neg h0, stepEvalSpec, if_pos rfl]
        cases hm : getRec st.map item.sample_id with
        | none => simp [hm, getRec_setRec_self, evalMergeRec]
        | some old =>
          by_cases he : item.evaluation_results.isSome
          · simp [hm, he, getRec_setRec_self, evalMergeRec]
          · simp [hm, he, getRec_setRec_self, evalMergeRec]
      · have hg := getRec_setRec_ne st.map item.sample_id id
          (evalMergeRec (getRec st.map item.sample_id) item) (Ne.symm hii)
        simp [parseEval, h0, stepEvalSpec, hii, hg]

theorem foldl_parseEval_getRec (lines : List Line) (st : LoadState) (id : String)
    (hid : id ≠ "") :
    getRec ((lines.foldl parseEval st).map) id =
      lines.foldl (stepEvalSpec id) (getRec st.map id) := by
  induction lines generalizing st with
  | nil => rfl
  | cons l ls ih =>
    rw [List.foldl_cons, List.foldl_cons, ih, parseEval_getRec st l id hid]

/-! Loader-state invariants: keys are the (non-empty) sample ids of their
entries, keys are unique, and the done-set tracks the validity of the
current map entry. -/

def WellKeyed (m : List (String × Record)) : Prop :=
  ∀ p ∈ m, p.1 ≠ "" ∧ p.2.sample_id = p.1

theorem wellKeyed_setRec {m : List (String × Record)} (h : WellKeyed m)
    {k : String} {v : Record} (hk : k ≠ "") (hv : v.sample_id = k) :
    WellKeyed (setRec m k v) := by
  intro p hp
  rcases mem_setRec hp with he | hm
  · subst he
    exact ⟨hk, hv⟩
  · exact h p hm

theorem parseInfer_wellKeyed {st : LoadState} (l : Line) (h : WellKeyed st.map) :
    WellKeyed (parseInfer st l).map := by
  cases l with
  | junk => exact h
  | obj item =>
    by_cases h0 : item.sample_id = ""
    · simpa [parseInfer, h0] using h
    · simpa [parseInfer, h0] using wellKeyed_setRec h h0 rfl

theorem parseEval_wellKeyed {st : LoadState} (l : Line) (h : WellKeyed st.map) :
    WellKeyed (parseEval st l).map := by
  cases l with
  | junk => exact h
  | obj item =>
    by_cases h0 : item.sample_id = ""
    · simpa [parseEval, h0] using h
    · have hv : (evalMergeRec (getRec st.map item.sample_id) item).sample_id =
        item.sample_id := by
        cases hm : getRec st.map item.sample_id with
        | none => simp [evalMergeRec]
        | some old =>
          have hold := (h _ (getRec_some_mem hm)).2
          by_cases he : item.evaluation_results.isSome
          · simpa [evalMergeRec, he] using hold
          · simpa [evalMergeRec, he] using hold
      simpa [parseEval, h0] using wellKeyed_setRec h h0 hv

theorem parseInfer_nodupKeys {st : LoadState} (l : Line)
    (h : (st.map.map Prod.fst).Nodup) : ((parseInfer st l).map.map Prod.fst).Nodup := by
  cases l with
  | junk => exact h
  | obj item =>
    by_cases h0 : item.sample_id = ""
    · simpa [parseInfer, h0] using h
    · simpa [parseInfer, h0] using nodupKeys_setRec item.sample_id item h

theorem parseEval_nodupKeys {st : LoadState} (l : Line)
    (h : (st.map.map Prod.fst).Nodup) : ((parseEval st l).map.map Prod.fst).Nodup := by
  cases l with
  | junk => exact h
  | obj item =>
    by_cases h0 : item.sample_id = ""
    · simpa [parseEval, h0] using h
    · simpa [parseEval, h0] using
        nodupKeys_setRec item.sample_id (evalMergeRec (getRec st.map item.sample_id) item) h

/-- Done-set invariant of the inference replay: an id is recorded as
processed exactly when its current map entry has a valid answer. -/
def InferDoneInv (st : LoadState) : Prop :=
  ∀ id, id ∈ st.done ↔
    ∃ r, getRec st.map id = some r ∧ isValidAnswer r.answer = true

/-- Done-set invariant of the evaluation replay: an id is recorded as
evaluated exactly when its current map entry has valid results. -/
def EvalDoneInv (st : LoadState) : Prop :=
  ∀ id, id ∈ st.done ↔
    ∃ r, getRec st.map id = some r ∧ isValidEval r.evaluation_results = true

theorem parseInfer_doneInv {st : LoadState} (l : Line) (h : InferDoneInv st) :
    InferDoneInv (parseInfer st l) := by
  cases l with
  | junk => exact h
  | obj item =>
    by_cases h0 : item.sample_id = ""
    · simpa [parseInfer, h0] using h
    · intro id
      by_cases hii : item.sample_id = id
      · subst hii
        by_cases hv : isValidAnswer item.answer
        · simp [parseInfer, h0, hv, getRec_setRec_self]
        · simp [parseInfer, h0, hv, getRec_setRec_self,
            Bool.not_eq_true _ ▸ hv]
      · have hg := getRec_setRec_ne st.map item.sample_id id item (Ne.symm hii)
        by_cases hv : isValidAnswer item.answer
        · simp only [parseInfer, if_neg h0, if_pos hv, Finset.mem_insert, hg]
          simp [Ne.symm hii, h id]
        · simp only [parseInfer, if_neg h0, if_neg hv, Finset.mem_erase, hg]
          simp [Ne.symm hii, h id]

theorem parseEval_doneInv {st : LoadState} (l : Line) (h : EvalDoneInv st) :
    EvalDoneInv (parseEval st l) := by
  cases l with
  | junk => exact h
  | obj item =>
    by_cases h0 : item.sample_id = ""
    · simpa [parseEval, h0] using h
    · intro id
      by_cases hii : item.sample_id = id
      · subst hii
        by_cases hv : isValidEval
            (evalMergeRec (getRec st.map item.sample_id) item).evaluation_results
        · simp [parseEval, h0, hv, getRec_setRec_self]
        · simp [parseEval, h0, hv, getRec_setRec_self]
      · have hg := getRec_setRec_ne st.map item.sample_id id
          (evalMergeRec (getRec st.map item.sample_id) item) (Ne.symm hii)
        by_cases hv : isValidEval
            (evalMergeRec (getRec st.map item.sample_id) item).evaluation_results
        · simp only [parseEval, if_neg h0, if_pos hv, Finset.mem_insert, hg]
          simp [Ne.symm hii, h id]
        · simp only [parseEval, if_neg h0, if_neg hv, Finset.mem_erase, hg]
          simp [Ne.symm hii, h id]

theorem foldl_preserve {P : LoadState → Prop} {f : LoadState → Line → LoadState}
    (hf : ∀ st l, P st → P (f st l)) :
    ∀ (lines : List Line) (st : LoadState), P st → P (lines.foldl f st) := by
  intro lines
  induction lines with
  | nil => exact fun st h => h
  | cons l ls ih => exact fun st h => ih _ (hf st l h)

theorem inferLoadSt_wellKeyed (main log : List Line) :
    WellKeyed (inferLoadSt main log).map :=
  foldl_preserve (P := fun st => WellKeyed st.map)
    (fun _ l h => parseInfer_wellKeyed l h) (main ++ log) initState
    (by intro p hp; cases hp)

theorem evalLoadSt_wellKeyed (main log : List Line) :
    WellKeyed (evalLoadSt main log).map :=
  foldl_preserve (P := fun st => WellKeyed st.map)
    (fun _ l h => parseEval_wellKeyed l h) (main ++ log) initState
    (by intro p hp; cases hp)

theorem inferLoadSt_nodupKeys (main log : List Line) :
    (((inferLoadSt main log).map).map Prod.fst).Nodup :=
  foldl_preserve (P := fun st => ((st.map).map Prod.fst).Nodup)
    (fun _ l h => parseInfer_nodupKeys l h) (main ++ log) initState
    (by simp [initState])

theorem evalLoadSt_nodupKeys (main log : List Line) :
    (((evalLoadSt main log).map).map Prod.fst).Nodup :=
  foldl_preserve (P := fun st => ((st.map).map Prod.fst).Nodup)
    (fun _ l h => parseEval_nodupKeys l h) (main ++ log) initState
    (by simp [initState])

theorem inferLoadSt_doneInv (main log : List Line) :
    InferDoneInv (inferLoadSt main log) :=
  foldl_preserve (P := InferDoneInv)
    (fun _ l h => parseInfer_doneInv l h) (main ++ log) initState
    (by intro id; simp [initState, getRec])

theorem evalLoadSt_doneInv (main log : List Line) :
    EvalDoneInv (evalLoadSt main log) :=
  foldl_preserve (P := EvalDoneInv)
    (fun _ l h => parseEval_doneInv l h) (main ++ log) initState
    (by intro id; simp [initState, getRec])

theorem getRec_empty_key {m : List (String × Record)} (h : WellKeyed m) :
    getRec m "" = none := by
  cases hg : getRec m "" with
  | none => rfl
  | some r => exact absurd rfl (h _ (getRec_some_mem hg)).1

/-! Claim C1. -/

/-- Record-store line of the C1 counterexample. -/
def c1StoreRec : Record := { sample_id := "s", answer := some (.jstr "a") }

/-- Later evaluation stage-log line of the C1 counterexample: same sample
id, a different answer, and fresh evaluation results. -/
def c1LogRec : Record :=
  { sample_id := "s"
    answer := some (.jstr "b")
    evaluation_results := some (.jobj [("score", .lnum 1)]) }

/-- C1 fails on the evaluation loader: replaying a record-store line with
answer "a" and then a stage-log line for the same sample id with answer
"b" and fresh evaluation results does NOT assign the full log record to
the id — only its `evaluation_results` field is taken, the answer staying
"a" from the store line. -/
theorem c1_counterexample :
    getRec (evalLoadSt [Line.obj c1StoreRec] [Line.obj c1LogRec]).map "s" =
      some { c1StoreRec with evaluation_results := c1LogRec.evaluation_results } ∧
    getRec (evalLoadSt [Line.obj c1StoreRec] [Line.obj c1LogRec]).map "s" ≠
      some c1LogRec :=
  ⟨by decide, by decide⟩

/-- C1 (amended): for every record store and stage log contents and every
sample id, the INFERENCE loader's map assigns exactly the full record of
the last replayed line containing that id (store lines first, then log
lines, each such line fully overwriting); the EVALUATION loader instead
keeps the first replayed record for the id and only overwrites its
`evaluation_results` field with the value of the last line for that id
that carries the key. The record store produced by a subsequent merge
holds exactly these map values. -/
theorem c1_loader_map_assignment (main log : List Line) (id : String) :
    getRec (inferLoadSt main log).map id = specLastRecord (main ++ log) id ∧
    getRec (evalLoadSt main log).map id = specEvalRecord (main ++ log) id := by
  constructor
  · by_cases hid : id = ""
    · subst hid
      rw [specLastRecord, if_pos rfl, getRec_empty_key (inferLoadSt_wellKeyed main log)]
    · rw [specLastRecord, if_neg hid, inferLoadSt, foldl_parseInfer_getRec _ _ _ hid]
      rfl
  · by_cases hid : id = ""
    · subst hid
      rw [specEvalRecord, if_pos rfl, getRec_empty_key (evalLoadSt_wellKeyed main log)]
    · rw [specEvalRecord, if_neg hid, evalLoadSt, foldl_parseEval_getRec _ _ _ hid]
      rfl

/-! Claim C3. -/

/-- C3: after the full replay, the done-sets record exactly the ids whose
FINAL map entry is validly answered (resp. validly evaluated) — so a
later invalid line retracts an earlier recorded validity — and the
records classified as needing processing are exactly the map entries not
validly done for the stage, restricted for infer to those whose prompt
did not itself fail (with error-marked answers re-queued when the retry
flag is set), and for evaluate to those with a valid answer (with
error-marked evaluations re-queued only when the eval retry flag is
set); the source fixes the flags to retry for infer and do-not-retry for
evaluate. -/
theorem c3_needs_processing_classification (main log : List Line)
    (retryI retryE : Bool) :
    (∀ id, id ∈ (inferLoadSt main log).done ↔
      ∃ r, getRec (inferLoadSt main log).map id = some r ∧
        isValidAnswer r.answer = true) ∧
    inferTasksWith retryI (inferLoadSt main log) =
      (((inferLoadSt main log).map.filter fun p =>
        !isValidAnswer p.2.answer && (!isErrorAnswer p.2.answer || retryI) &&
        !(decide (p.2.prompt = some (.jstr promptFailedStr)))).map Prod.snd) ∧
    (∀ id, id ∈ (evalLoadSt main log).done ↔
      ∃ r, getRec (evalLoadSt main log).map id = some r ∧
        isValidEval r.evaluation_results = true) ∧
    evalTasksWith retryE (evalLoadSt main log) =
      (((evalLoadSt main log).map.filter fun p =>
        isValidAnswer p.2.answer && !isValidEval p.2.evaluation_results &&
        (!isEvalError p.2.evaluation_results || retryE)).map Prod.snd) ∧
    inferTasks (inferLoadSt main log) = inferTasksWith true (inferLoadSt main log) ∧
    evalTasks (evalLoadSt main log) = evalTasksWith false (evalLoadSt main log) := by
  refine ⟨inferLoadSt_doneInv main log, ?_, evalLoadSt_doneInv main log, ?_, rfl, rfl⟩
  · unfold inferTasksWith
    congr 1
    apply List.filter_congr
    intro p hp
    have hmem := (mem_iff_getRec (inferLoadSt_nodupKeys main log) p).mp hp
    have hiff := inferLoadSt_doneInv main log p.1
    have hb : decide (p.1 ∈ (inferLoadSt main log).done) = isValidAnswer p.2.answer := by
      by_cases hd : p.1 ∈ (inferLoadSt main log).done
      · obtain ⟨r, hr, hv⟩ := hiff.mp hd
        have hpr : p.2 = r := Option.some.inj (hmem.symm.trans hr)
        exact (decide_eq_true hd).trans (hpr ▸ hv).symm
      · have hv : ¬ isValidAnswer p.2.answer = true :=
          fun hv => hd (hiff.mpr ⟨p.2, hmem, hv⟩)
        exact (decide_eq_false hd).trans (Bool.eq_false_iff.mpr hv).symm
    rw [hb]
  · unfold evalTasksWith
    congr 1
    apply List.filter_congr
    intro p hp
    have hmem := (mem_iff_getRec (evalLoadSt_nodupKeys main log) p).mp hp
    have hiff := evalLoadSt_doneInv main log p.1
    have hb : decide (p.1 ∈ (evalLoadSt main log).done) =
        isValidEval p.2.evaluation_results := by
      by_cases hd : p.1 ∈ (evalLoadSt main log).done
      · obtain ⟨r, hr, hv⟩ := hiff.mp hd
        have hpr : p.2 = r := Option.some.inj (hmem.symm.trans hr)
        exact (decide_eq_true hd).trans (hpr ▸ hv).symm
      · have hv : ¬ isValidEval p.2.evaluation_results = true :=
          fun hv => hd (hiff.mpr ⟨p.2, hmem, hv⟩)
        exact (decide_eq_false hd).trans (Bool.eq_false_iff.mpr hv).symm
    rw [hb]

/-! Filesystem model. A file is either a JSON-lines body (record store,
stage logs) or a single pretty-printed JSON object (the metric report). -/

/-- Nested accumulator / report shape: hierarchy -> metric -> value pair.
For the running statistics the pair is (sum, count); for the final report
it is (average, samples). -/
abbrev Stats := List (String × List (String × (ℚ × ℕ)))

inductive FileData where
  | jsonl (ls : List Line)
  | jsonObj (rep : Stats)
deriving DecidableEq

/-- Filesystem state: path to contents ( `none` = file does not exist). -/
def FS : Type := String → Option FileData

/-- Write, create or delete ( `v = none` ) a file. -/
def FS.set (fs : FS) (p : String) (v : Option FileData) : FS :=
  fun q => if q = p then v else fs q

/-- Line-oriented read of a file, as the loaders and the analyzer do.
Reading the report file as JSON lines never happens in the pipeline; it
is mapped to an empty line list. -/
def FS.linesAt (fs : FS) (p : String) : Option (List Line) :=
  match fs p with
  | some (.jsonl ls) => some ls
  | some (.jsonObj _) => some []
  | none => none

theorem FS.set_self (fs : FS) (p : String) (v : Option FileData) :
    fs.set p v p = v := by simp [FS.set]

theorem FS.set_ne (fs : FS) {p q : String} (v : Option FileData) (h : q ≠ p) :
    fs.set p v q = fs q := by simp [FS.set, h]

/-- Path of the inference stage log: `output_file + ".infer.log"`. -/
def inferLogPath (out : String) : String := out ++ ".infer.log"

/-- Path of the evaluation stage log: `output_file + ".eval.log"`. -/
def evalLogPath (out : String) : String := out ++ ".eval.log"

/-- Path of the temporary file of `_safe_rewrite_file`:
`target_file + ".tmp_rewrite"` — a sibling of the target (same directory,
since only the final path component is extended). -/
def tmpPath (target : String) : String := target ++ ".tmp_rewrite"

theorem append_ne_of_length_ne (s : String) {a b : String}
    (h : a.length ≠ b.length) : s ++ a ≠ s ++ b := by
  intro he
  have h2 : s.length + a.length = s.length + b.length := by
    simpa [String.length_append] using congrArg String.length he
  omega

theorem append_ne_self (s : String) {a : String} (h : a.length ≠ 0) :
    s ++ a ≠ s := by
  intro he
  have h2 : s.length + a.length = s.length := by
    simpa [String.length_append] using congrArg String.length he
  omega

theorem tmpPath_ne_self (t : String) : tmpPath t ≠ t :=
  append_ne_self t (by decide)

theorem inferLogPath_ne_self (out : String) : inferLogPath out ≠ out :=
  append_ne_self out (by decide)

theorem evalLogPath_ne_self (out : String) : evalLogPath out ≠ out :=
  append_ne_self out (by decide)

theorem inferLogPath_ne_tmpPath (out : String) :
    inferLogPath out ≠ tmpPath out :=
  append_ne_of_length_ne out (by decide)

theorem evalLogPath_ne_tmpPath (out : String) :
    evalLogPath out ≠ tmpPath out :=
  append_ne_of_length_ne out (by decide)

/-- Failure point inside `_safe_rewrite_file`: an exception while
serializing/writing the temporary file, or one during the atomic
`shutil.move` rename. -/
inductive RwFail where
  | writeFail
  | moveFail
deriving DecidableEq, Repr

/-- Result of `_safe_rewrite_file`: the filesystem afterwards, and
whether the call returned normally ( `ok = false` means the exception was
re-raised to the caller after cleanup). -/
structure RwResult where
  fs : FS
  ok : Bool

/-- Model of `_safe_rewrite_file`: serialize the full data to
`target + ".tmp_rewrite"`, then atomically rename it over the target.
On success the temporary file is consumed by the rename. On a failure at
either step the `except` branch removes the temporary file (a no-op when
the open itself failed and the file never existed) and re-raises. The
type system discharges the source's `TypeError` branch for non-list data
and the skip of non-dict items. `os.remove` of the temporary file is
modelled as succeeding (the source swallows an `OSError` there). -/
def safeRewriteFile (fs : FS) (target : String) (content : FileData)
    (fail : Option RwFail) : RwResult :=
  match fail with
  | none =>
    ⟨((fs.set (tmpPath target) (some content)).set (tmpPath target) none).set
      target (some content), true⟩
  | some .writeFail => ⟨fs.set (tmpPath target) none, false⟩
  | some .moveFail => ⟨fs.set (tmpPath target) none, false⟩

/-- Model of the stage-log append helpers: records without a sample id
are not written at all; otherwise one complete line is appended, the file
being created when absent (open mode "a"). -/
def appendRecordLine (fs : FS) (p : String) (r : Record) : FS :=
  if r.sample_id = "" then fs
  else fs.set p (some (.jsonl ((fs.linesAt p).getD [] ++ [Line.obj r])))

/-- Model of `_append_to_infer_log`. -/
def appendToInferLog (fs : FS) (out : String) (r : Record) : FS :=
  appendRecordLine fs (inferLogPath out) r

/-- Model of `_append_to_eval_log`. -/
def appendToEvalLog (fs : FS) (out : String) (r : Record) : FS :=
  appendRecordLine fs (evalLogPath out) r

/-- Common body of `_merge_infer_log_to_main` / `_merge_eval_log_to_main`:
with an empty map nothing is written; otherwise the map values are
safe-rewritten over the record store, and only when that rewrite
succeeded is the stage log removed (the `os.remove` is a no-op when the
log does not exist; its possible `OSError` is swallowed by the source and
modelled as success). A rewrite failure is caught and logged — not
re-raised — and the stage log is left untouched. -/
def mergeLogToMain (fs : FS) (out logPath : String)
    (m : List (String × Record)) (fail : Option RwFail) : FS :=
  if m.isEmpty then fs
  else
    let r := safeRewriteFile fs out (.jsonl (linesOf (m.map Prod.snd))) fail
    if r.ok then r.fs.set logPath none else r.fs

/-- Model of `_merge_infer_log_to_main`. -/
def mergeInferLogToMain (fs : FS) (out : String) (m : List (String × Record))
    (fail : Option RwFail) : FS :=
  mergeLogToMain fs out (inferLogPath out) m fail

/-- Model of `_merge_eval_log_to_main`. -/
def mergeEvalLogToMain (fs : FS) (out : String) (m : List (String × Record))
    (fail : Option RwFail) : FS :=
  mergeLogToMain fs out (evalLogPath out) m fail

/-! Claim C5. -/

/-- C5: a safe rewrite serializes to the sibling temporary path and
renames it over the target: on success the target holds exactly the
serialized data, the temporary file is gone and no other path changed;
on a failure at any step the call reports the error to the caller
( `ok = false` ), the temporary file is removed, the target keeps its
previous contents and no other path changed. -/
theorem c5_safe_rewrite_atomic (fs : FS) (target : String) (content : FileData)
    (f : RwFail) :
    ((safeRewriteFile fs target content none).ok = true ∧
     (safeRewriteFile fs target content none).fs target = some content ∧
     (safeRewriteFile fs target content none).fs (tmpPath target) = none ∧
     ∀ p, p ≠ target → p ≠ tmpPath target →
       (safeRewriteFile fs target content none).fs p = fs p) ∧
    ((safeRewriteFile fs target content (some f)).ok = false ∧
     (safeRewriteFile fs target content (some f)).fs target = fs target ∧
     (safeRewriteFile fs target content (some f)).fs (tmpPath target) = none ∧
     ∀ p, p ≠ tmpPath target →
       (safeRewriteFile fs target content (some f)).fs p = fs p) := by
  constructor
  · refine ⟨rfl, FS.set_self _ _ _, ?_, ?_⟩
    · show (((fs.set (tmpPath target) (some content)).set (tmpPath target)
        none).set target (some content)) (tmpPath target) = none
      rw [FS.set_ne _ _ (tmpPath_ne_self target), FS.set_self]
    · intro p hpt hptmp
      show (((fs.set (tmpPath target) (some content)).set (tmpPath target)
        none).set target (some content)) p = fs p
      rw [FS.set_ne _ _ hpt, FS.set_ne _ _ hptmp, FS.set_ne _ _ hptmp]
  · cases f
    · exact ⟨rfl, FS.set_ne _ _ (Ne.symm (tmpPath_ne_self target)), FS.set_self _ _ _,
        fun p hptmp => FS.set_ne _ _ hptmp⟩
    · exact ⟨rfl, FS.set_ne _ _ (Ne.symm (tmpPath_ne_self target)), FS.set_self _ _ _,
        fun p hptmp => FS.set_ne _ _ hptmp⟩

/-- Witness for C5 at a concrete filesystem, target and failure point. -/
theorem c5_witness :
    (safeRewriteFile (fun _ => none) "o" (.jsonl []) none).fs "o" =
      some (.jsonl []) ∧
    (safeRewriteFile (fun _ => none) "o" (.jsonl []) (some .writeFail)).fs "z" =
      none :=
  ⟨(c5_safe_rewrite_atomic (fun _ => none) "o" (.jsonl []) .writeFail).1.2.1,
   (c5_safe_rewrite_atomic (fun _ => none) "o" (.jsonl []) .writeFail).2.2.2.2
     "z" (by decide)⟩

/-! Claim C6. -/

/-- C6: merging a non-empty in-memory map into the record store deletes
the corresponding stage log exactly when the safe rewrite of the store
succeeded: on success the store holds the serialized map values and the
log is gone; on a rewrite failure the store and the log are both left
with their previous contents — for the inference merge and the
evaluation merge alike. -/
theorem c6_merge_log_removal (fs : FS) (out : String)
    (m : List (String × Record)) (f : RwFail) (hm : m ≠ []) :
    (mergeInferLogToMain fs out m none (inferLogPath out) = none ∧
     mergeInferLogToMain fs out m none out =
       some (.jsonl (linesOf (m.map Prod.snd))) ∧
     mergeInferLogToMain fs out m (some f) (inferLogPath out) =
       fs (inferLogPath out) ∧
     mergeInferLogToMain fs out m (some f) out = fs out) ∧
    (mergeEvalLogToMain fs out m none (evalLogPath out) = none ∧
     mergeEvalLogToMain fs out m none out =
       some (.jsonl (linesOf (m.map Prod.snd))) ∧
     mergeEvalLogToMain fs out m (some f) (evalLogPath out) =
       fs (evalLogPath out) ∧
     mergeEvalLogToMain fs out m (some f) out = fs out) := by
  have hme : m.isEmpty = false := by
    cases m with
    | nil => exact absurd rfl hm
    | cons a as => rfl
  have h1 : mergeInferLogToMain fs out m none =
      (safeRewriteFile fs out (.jsonl (linesOf (m.map Prod.snd))) none).fs.set
        (inferLogPath out) none := by
    unfold mergeInferLogToMain mergeLogToMain
    rw [hme]
    rfl
  have h2 : mergeInferLogToMain fs out m (some f) = fs.set (tmpPath out) none := by
    unfold mergeInferLogToMain mergeLogToMain
    rw [hme]
    cases f <;> rfl
  have h3 : mergeEvalLogToMain fs out m none =
      (safeRewriteFile fs out (.jsonl (linesOf (m.map Prod.snd))) none).fs.set
        (evalLogPath out) none := by
    unfold mergeEvalLogToMain mergeLogToMain
    rw [hme]
    rfl
  have h4 : mergeEvalLogToMain fs out m (some f) = fs.set (tmpPath out) none := by
    unfold mergeEvalLogToMain mergeLogToMain
    rw [hme]
    cases f <;> rfl
  refine ⟨⟨?_, ?_, ?_, ?_⟩, ?_, ?_, ?_, ?_⟩
  · rw [h1, FS.set_self]
  · rw [h1, FS.set_ne _ _ (Ne.symm (inferLogPath_ne_self out))]
    show (((fs.set (tmpPath out) _).set (tmpPath out) none).set out _) out = _
    rw [FS.set_self]
  · rw [h2, FS.set_ne _ _ (inferLogPath_ne_tmpPath out)]
  · rw [h2, FS.set_ne _ _ (Ne.symm (tmpPath_ne_self out))]
  · rw [h3, FS.set_self]
  · rw [h3, FS.set_ne _ _ (Ne.symm (evalLogPath_ne_self out))]
    show (((fs.set (tmpPath out) _).set (tmpPath out) none).set out _) out = _
    rw [FS.set_self]
  · rw [h4, FS.set_ne _ _ (evalLogPath_ne_tmpPath out)]
  · rw [h4, FS.set_ne _ _ (Ne.symm (tmpPath_ne_self out))]

/-- Witness for C6 at a concrete filesystem, non-empty map and failure. -/
theorem c6_witness :
    mergeInferLogToMain (fun _ => none) "o" [("w", { sample_id := "w" })]
      none (inferLogPath "o") = none ∧
    mergeEvalLogToMain (fun _ => none) "o" [("w", { sample_id := "w" })]
      (some .moveFail) "o" = none :=
  ⟨(c6_merge_log_removal (fun _ => none) "o" [("w", { sample_id := "w" })]
      .moveFail (by decide)).1.1,
   (c6_merge_log_removal (fun _ => none) "o" [("w", { sample_id := "w" })]
      .moveFail (by decide)).2.2.2.2⟩

/-! Claim C10. -/

/-- C10: every entry of either loader map is keyed by a non-empty sample
id carried by the entry's record itself (lines without one never enter),
every record scheduled for processing by either stage has a non-empty
sample id, and both stage-log append operations write nothing for a
record without one. -/
theorem c10_nonempty_sample_ids (main log : List Line) :
    (∀ p ∈ (inferLoadSt main log).map, p.1 ≠ "" ∧ p.2.sample_id = p.1) ∧
    (∀ r ∈ inferTasks (inferLoadSt main log), r.sample_id ≠ "") ∧
    (∀ p ∈ (evalLoadSt main log).map, p.1 ≠ "" ∧ p.2.sample_id = p.1) ∧
    (∀ r ∈ evalTasks (evalLoadSt main log), r.sample_id ≠ "") ∧
    (∀ (fs : FS) (out : String) (r : Record), r.sample_id = "" →
      appendToInferLog fs out r = fs) ∧
    (∀ (fs : FS) (out : String) (r : Record), r.sample_id = "" →
      appendToEvalLog fs out r = fs) := by
  refine ⟨inferLoadSt_wellKeyed main log, ?_, evalLoadSt_wellKeyed main log, ?_,
    ?_, ?_⟩
  · intro r hr
    obtain ⟨p, hpf, hps⟩ := List.mem_map.mp hr
    have hpm := List.mem_of_mem_filter hpf
    have hw := inferLoadSt_wellKeyed main log p hpm
    rw [← hps, hw.2]
    exact hw.1
  · intro r hr
    obtain ⟨p, hpf, hps⟩ := List.mem_map.mp hr
    have hpm := List.mem_of_mem_filter hpf
    have hw := evalLoadSt_wellKeyed main log p hpm
    rw [← hps, hw.2]
    exact hw.1
  · intro fs out r h
    simp [appendToInferLog, appendRecordLine, h]
  · intro fs out r h
    simp [appendToEvalLog, appendRecordLine, h]

/-- Record used by the C10 witness. -/
def c10Rec : Record := { sample_id := "w" }

/-- Witness for C10 at concrete loader input, task and append calls. -/
theorem c10_witness :
    c10Rec.sample_id ≠ "" ∧
    appendToInferLog (fun _ => none) "o" { sample_id := "" } = (fun _ => none) ∧
    appendToEvalLog (fun _ => none) "o" { sample_id := "" } = (fun _ => none) :=
  ⟨(c10_nonempty_sample_ids [Line.obj c10Rec] []).2.1 c10Rec (by decide),
   (c10_nonempty_sample_ids [] []).2.2.2.2.1 (fun _ => none) "o" _ rfl,
   (c10_nonempty_sample_ids [] []).2.2.2.2.2 (fun _ => none) "o" _ rfl⟩

/-! Hierarchical metrics aggregator (`analyze_hierarchical_metrics`). -/

/-- Python `str.split('/')` over the character list (the analyzer only
ever splits on the slash). -/
def splitChars : List Char → List (List Char)
  | [] => [[]]
  | c :: cs =>
    let rest := splitChars cs
    if c = '/' then [] :: rest
    else
      match rest with
      | [] => [[c]]
      | g :: gs => (c :: g) :: gs

/-- Split a task path on slashes. -/
def splitSlash (s : String) : List String :=
  (splitChars s.data).map fun l => String.mk l

/-- Python `'/'.join(...)`. -/
def joinSlash : List String → String
  | [] => ""
  | [x] => x
  | x :: xs => x ++ "/" ++ joinSlash xs

/-- Python `isinstance(v, (int, float))` extraction for a value one level
inside `evaluation_results`. A JSON boolean counts, because Python's bool
is a subclass of int (True aggregates as 1, False as 0). -/
def numOfLeaf : Option JLeaf → Option ℚ
  | some (.lnum q) => some q
  | some (.lbool b) => some (if b then 1 else 0)
  | _ => none

/-- Same numeric extraction for a top-level record field (durations). -/
def numOfVal : Option JVal → Option ℚ
  | some (.jnum q) => some q
  | some (.jbool b) => some (if b then 1 else 0)
  | _ => none

/-- Lookup in an insertion-ordered association list. -/
def lookupStr {α : Type} : List (String × α) → String → Option α
  | [], _ => none
  | p :: ps, k => if p.1 = k then some p.2 else lookupStr ps k

/-- Read a (sum, count) cell of the statistics, defaulting to (0, 0) as
the nested `defaultdict(lambda: defaultdict(lambda: [0.0, 0]))` does. -/
def statsGet (stats : Stats) (h m : String) : ℚ × ℕ :=
  ((lookupStr stats h).getD []).foldl
    (fun acc e => if e.1 = m then e.2 else acc) (0, 0)

/-- Update one metric cell of one hierarchy bucket:
`stats[hierarchy][metric][0] += value; stats[hierarchy][metric][1] += 1`. -/
def bumpInner (m : String) (v : ℚ) :
    List (String × (ℚ × ℕ)) → List (String × (ℚ × ℕ))
  | [] => [(m, (v, 1))]
  | p :: ps =>
    if p.1 = m then (p.1, (p.2.1 + v, p.2.2 + 1)) :: ps
    else p :: bumpInner m v ps

/-- Update the nested statistics, new keys appended in insertion order as
a Python defaultdict does. -/
def statsBump : Stats → String → String → ℚ → Stats
  | [], h, m, v => [(h, bumpInner m v [])]
  | p :: ps, h, m, v =>
    if p.1 = h then (p.1, bumpInner m v p.2) :: ps
    else p :: statsBump ps h m v

/-- Per-record body of the analysis loop in `analyze_hierarchical_metrics`
(pipeline.py 541-578). The `registry` argument abstracts
`TaskFactory._tasks` together with `get_registered_metrics`: it returns
the registered metric names of a task type, or `none` when no class is
registered (or the class lacks the accessor). Records are skipped — in
source order — when `evaluation_results` is not an object or carries a
truthy `error` (which also skips the timing aggregation below), when the
task does not start with "longeval/", when the path has no parts after
the namespace, when no metrics are registered for the leading part, and
otherwise every metric with a numeric value, plus the two numeric
duration fields, is accumulated into the (sum, count) cell of every
depth-prefix of the path after the namespace. -/
def analyzeRecord (registry : String → Option (List String)) (stats : Stats)
    (item : Record) : Stats :=
  let infDur := numOfVal item.inference_duration_sec
  let evalDur := numOfVal item.evaluation_duration_sec
  if !(isValidEval item.evaluation_results) then stats
  else if !(strStartsWith item.task "longeval/") then stats
  else
    let parts := (splitSlash item.task).drop 1
    if parts.isEmpty then stats
    else
      let taskName := parts.headD ""
      match registry taskName with
      | none => stats
      | some metrics =>
        if metrics.isEmpty then stats
        else
          (List.range parts.length).foldl
            (fun st d =>
              let hierarchy := joinSlash (parts.take (d + 1))
              let st1 := metrics.foldl
                (fun st2 metric =>
                  match item.evaluation_results with
                  | some (.jobj fs) =>
                    match numOfLeaf (dictGet fs metric) with
                    | some v => statsBump st2 hierarchy metric v
                    | none => st2
                  | _ => st2) st
              let st2 :=
                match infDur with
                | some v => statsBump st1 hierarchy "inference_duration_sec" v
                | none => st1
              match evalDur with
              | some v => statsBump st2 hierarchy "evaluation_duration_sec" v
              | none => st2) stats

/-- Streaming statistics pass of `analyze_hierarchical_metrics` over the
record store lines; malformed lines are skipped by the per-line
try/except. -/
def analyzeStats (registry : String → Option (List String))
    (lines : List Line) : Stats :=
  lines.foldl
    (fun st l =>
      match l with
      | .junk => st
      | .obj item => analyzeRecord registry st item) []

/-- Python `round(x, 4)` on rationals, via floor(x * 10^4 + 1/2) / 10^4.
Python rounds half-to-even on floats; the two differ only at exact
half-tie values, which do not arise in the concrete claims below. -/
def round4 (q : ℚ) : ℚ := ((⌊q * 10000 + 1 / 2⌋ : ℤ) : ℚ) / 10000

/-- Code-point lexicographic comparison of character lists (Python string
ordering). -/
def charsLt : List Char → List Char → Bool
  | _, [] => false
  | [], _ :: _ => true
  | a :: as, b :: bs =>
    if a.toNat < b.toNat then true
    else if b.toNat < a.toNat then false
    else charsLt as bs

/-- Python `<` on strings. -/
def strLtB (a b : String) : Bool := charsLt a.data b.data

/-- Ascending insertion into a key-sorted association list. -/
def insertSorted {α : Type} (x : String × α) :
    List (String × α) → List (String × α)
  | [] => [x]
  | y :: ys => if strLtB y.1 x.1 then y :: insertSorted x ys else x :: y :: ys

/-- Python `sorted(d.items())` for a string-keyed association list with
unique keys. -/
def sortByKey {α : Type} (l : List (String × α)) : List (String × α) :=
  l.foldr insertSorted []

/-- Report construction of `analyze_hierarchical_metrics`: hierarchies
and metrics in sorted order, each positive-count cell reported as
(average rounded to 4 places, sample count). Counts are always positive
in reachable statistics, so no hierarchy bucket comes out empty. -/
def reportOf (stats : Stats) : Stats :=
  (sortByKey stats).map fun e =>
    (e.1, (sortByKey e.2).filterMap fun me =>
      if me.2.2 ≠ 0 then some (me.1, (round4 (me.2.1 / (me.2.2 : ℚ)), me.2.2))
      else none)

/-- Lookup of one metric entry of the report. -/
def reportGet (rep : Stats) (h m : String) : Option (ℚ × ℕ) :=
  (lookupStr rep h).bind fun inner => lookupStr inner m

/-! Claim C2. -/

/-- Metric registry for the C2 records: task type "a" registers the
metric "score". -/
def c2Registry : String → Option (List String) :=
  fun t => if t = "a" then some ["score"] else none

/-- C2 failing input: a record with a numeric inference duration whose
evaluation results carry an error key. -/
def c2RecErr : Record :=
  { sample_id := "s"
    task := "longeval/a"
    evaluation_results := some (.jobj [("error", .lstr "boom")])
    inference_duration_sec := some (.jnum 1) }

/-- Control record for C2: same shape but with valid evaluation results. -/
def c2RecOk : Record :=
  { sample_id := "s"
    task := "longeval/a"
    evaluation_results := some (.jobj [("score", .lnum 1)])
    inference_duration_sec := some (.jnum 1) }

/-- C2 fails on the code: the aggregator's early `continue` for records
without a valid evaluation (pipeline.py 548-549) runs BEFORE the timing
aggregation (571-577), so a record with a numeric
`inference_duration_sec` but an error-marked evaluation contributes
nothing at all — not even its timing — while the identical record with a
valid evaluation does get its timing aggregated at the hierarchy level. -/
theorem c2_timing_skipped_on_invalid_eval :
    analyzeStats c2Registry [Line.obj c2RecErr] = [] ∧
    statsGet (analyzeStats c2Registry [Line.obj c2RecErr])
      "a" "inference_duration_sec" = (0, 0) ∧
    statsGet (analyzeStats c2Registry [Line.obj c2RecOk])
      "a" "inference_duration_sec" = (1, 1) :=
  ⟨by decide, by decide, by decide⟩

/-! Claim C4. -/

/-- Metric registry for the C4 scenario: task type "a" registers "score"
(for both records, whose task paths share the leading part "a" after the
namespace). -/
def c4Registry : String → Option (List String) :=
  fun t => if t = "a" then some ["score"] else none

/-- C4 scenario record with the claim's literal namespace "ns". -/
def c4NsRecB : Record :=
  { sample_id := "s1"
    task := "ns/a/b"
    evaluation_results := some (.jobj [("score", .lnum (4 / 5))]) }

/-- Second C4 scenario record with the claim's literal namespace "ns". -/
def c4NsRecC : Record :=
  { sample_id := "s2"
    task := "ns/a/c"
    evaluation_results := some (.jobj [("score", .lnum (2 / 5))]) }

/-- C4 record with the namespace the code actually accepts. -/
def c4RecB : Record :=
  { sample_id := "s1"
    task := "longeval/a/b"
    evaluation_results := some (.jobj [("score", .lnum (4 / 5))]) }

/-- Second C4 record with the namespace the code actually accepts. -/
def c4RecC : Record :=
  { sample_id := "s2"
    task := "longeval/a/c"
    evaluation_results := some (.jobj [("score", .lnum (2 / 5))]) }

/-- C4 fails as stated: the aggregator only accepts tasks whose path
starts with the literal namespace "longeval/" (pipeline.py 552), so a
store with tasks "ns/a/b" and "ns/a/c" — the claim's concrete input —
produces an empty report: no entry for "a" exists, instead of the claimed
average. -/
theorem c4_counterexample :
    analyzeStats c4Registry [Line.obj c4NsRecB, Line.obj c4NsRecC] = [] ∧
    reportGet (reportOf (analyzeStats c4Registry
      [Line.obj c4NsRecB, Line.obj c4NsRecC])) "a" "score" = none :=
  ⟨by decide, by decide⟩

/-- C4 (amended): the aggregator processes each validly-evaluated record
whose task starts with the fixed namespace "longeval/" by splitting the
path on "/", dropping that namespace segment, and accumulating each
registered metric's numeric value into a running (sum, count) at every
depth-prefix of the remaining path; for a store with task "longeval/a/b"
scoring 0.8 and task "longeval/a/c" scoring 0.4 (metric "score"
registered for both), the report contains a: (score 0.6 over 2 samples),
a/b: (0.8, 1), a/c: (0.4, 1). -/
theorem c4_hierarchical_averages :
    reportGet (reportOf (analyzeStats c4Registry
      [Line.obj c4RecB, Line.obj c4RecC])) "a" "score" = some (3 / 5, 2) ∧
    reportGet (reportOf (analyzeStats c4Registry
      [Line.obj c4RecB, Line.obj c4RecC])) "a/b" "score" = some (4 / 5, 1) ∧
    reportGet (reportOf (analyzeStats c4Registry
      [Line.obj c4RecB, Line.obj c4RecC])) "a/c" "score" = some (2 / 5, 1) := by
  refine ⟨?_, ?_, ?_⟩
  · show some (round4 ((4 / 5 + 2 / 5) / (((2 : ℕ)) : ℚ)), 2) = some (3 / 5, 2)
    norm_num [round4]
  · show some (round4 ((4 / 5) / (((1 : ℕ)) : ℚ)), 1) = some (4 / 5, 1)
    norm_num [round4]
  · show some (round4 ((2 / 5) / (((1 : ℕ)) : ℚ)), 1) = some (2 / 5, 1)
    norm_num [round4]

/-! Stage workers and stage executors. The external per-item processors
(`task_runner.call_api`, `task_runner.evaluate_response`) are abstracted
as oracles returning either a produced value or the exception text
"ExcType: message"; the `task_runners` table is abstracted as the
membership oracle `runners`. Elapsed wall-clock time is abstracted as an
oracle from the item to its duration. The thread pool is modelled as a
sequential fold over the pending tasks: the claims under verification do
not depend on completion order, and the in-memory map is mutated only by
the single result-draining loop in the source. -/

/-- The Python `item_copy.get("sample_id", "UNKNOWN_ID")` (the empty
string encodes an absent id in this model). -/
def workerIdStr (r : Record) : String :=
  if r.sample_id = "" then "UNKNOWN_ID" else r.sample_id

/-- Error-answer text of `_infer_worker`:
"ERROR: API call failed for item {id} - {type}: {message}". -/
def inferErrMsg (id msg : String) : String :=
  "ERROR: API call failed for item " ++ id ++ " - " ++ msg

/-- Error text of `_eval_worker`:
"ERROR: Evaluation failed for item {id} - {type}: {message}". -/
def evalErrMsg (id msg : String) : String :=
  "ERROR: Evaluation failed for item " ++ id ++ " - " ++ msg

/-- Model of `_infer_worker` (pipeline.py 234-258): the try-body raises
`ValueError` for a falsy `task_config.task_path`, an unknown task runner
or a missing prompt; a prompt equal to the generation-failure sentinel
yields the skip answer; otherwise the API oracle is consulted and any
exception text is wrapped into an "ERROR: ..." answer instead of
propagating. The `finally` block records the duration on every path,
including the early return and the exception paths. -/
def inferWorker (runners : String → Bool) (api : Record → Except String JVal)
    (dur : Record → ℚ) (item : Record) : Record :=
  let idStr := workerIdStr item
  let ans : JVal :=
    match item.task_path with
    | none => .jstr (inferErrMsg idStr "ValueError: Missing 'task_config.task_path'")
    | some tp =>
      if tp = "" then
        .jstr (inferErrMsg idStr "ValueError: Missing 'task_config.task_path'")
      else if !(runners tp) then
        .jstr (inferErrMsg idStr
          ("ValueError: TaskRunner not found for path '" ++ tp ++ "'"))
      else
        match item.prompt with
        | none => .jstr (inferErrMsg idStr "ValueError: Missing 'prompt'")
        | some .jnull => .jstr (inferErrMsg idStr "ValueError: Missing 'prompt'")
        | some p =>
          if p = .jstr promptFailedStr then
            .jstr "ERROR: Skipped due to prompt generation failure"
          else
            match api item with
            | .ok v => v
            | .error msg => .jstr (inferErrMsg idStr msg)
  { item with answer := some ans
              inference_duration_sec := some (.jnum (dur item)) }

/-- Model of `_eval_worker` (pipeline.py 454-473): same structure, the
exception paths producing an object with an "error" key, and the
`finally` block recording the evaluation duration on every path. -/
def evalWorker (runners : String → Bool) (evalApi : Record → Except String JVal)
    (dur : Record → ℚ) (item : Record) : Record :=
  let idStr := workerIdStr item
  let res : JVal :=
    match item.task_path with
    | none =>
      .jobj [("error", .lstr (evalErrMsg idStr "ValueError: Missing 'task_config.task_path'"))]
    | some tp =>
      if tp = "" then
        .jobj [("error", .lstr (evalErrMsg idStr "ValueError: Missing 'task_config.task_path'"))]
      else if !(runners tp) then
        .jobj [("error", .lstr (evalErrMsg idStr
          ("ValueError: TaskRunner not found for path '" ++ tp ++ "'")))]
      else
        match evalApi item with
        | .ok v => v
        | .error msg => .jobj [("error", .lstr (evalErrMsg idStr msg))]
  { item with evaluation_results := some res
              evaluation_duration_sec := some (.jnum (dur item)) }

/-- One drained future of the inference pool: the finished record is
appended to the stage log, then the in-memory map is updated (when the
original task carried an id). -/
def inferStep (runners : String → Bool) (api : Record → Except String JVal)
    (dur : Record → ℚ) (logPath : String)
    (acc : FS × List (String × Record)) (t : Record) :
    FS × List (String × Record) :=
  let r := inferWorker runners api dur t
  (appendRecordLine acc.1 logPath r,
   if t.sample_id = "" then acc.2 else setRec acc.2 t.sample_id r)

/-- Sequential model of the inference worker pool over the pending
tasks. -/
def runInferWorkers (runners : String → Bool) (api : Record → Except String JVal)
    (dur : Record → ℚ) (fs : FS) (logPath : String)
    (m : List (String × Record)) (tasks : List Record) :
    FS × List (String × Record) :=
  tasks.foldl (inferStep runners api dur logPath) (fs, m)

/-- One drained future of the evaluation pool. -/
def evalStep (runners : String → Bool) (evalApi : Record → Except String JVal)
    (dur : Record → ℚ) (logPath : String)
    (acc : FS × List (String × Record)) (t : Record) :
    FS × List (String × Record) :=
  let r := evalWorker runners evalApi dur t
  (appendRecordLine acc.1 logPath r,
   if t.sample_id = "" then acc.2 else setRec acc.2 t.sample_id r)

/-- Sequential model of the evaluation worker pool. -/
def runEvalWorkers (runners : String → Bool) (evalApi : Record → Except String JVal)
    (dur : Record → ℚ) (fs : FS) (logPath : String)
    (m : List (String × Record)) (tasks : List Record) :
    FS × List (String × Record) :=
  tasks.foldl (evalStep runners evalApi dur logPath) (fs, m)

/-- Model of `_load_and_prepare_inference_tasks` over the filesystem:
`readFail` models an I/O exception while reading either file (which makes
the loader return `(None, None)`); the loader also reports no input when
the map is empty and the record store does not exist. -/
def loadInferFS (fs : FS) (out : String) (readFail : Bool) : Option LoadState :=
  if readFail then none
  else
    let st := inferLoadSt ((fs.linesAt out).getD [])
      ((fs.linesAt (inferLogPath out)).getD [])
    if st.map.isEmpty && (fs out).isNone then none
    else some st

/-- Model of `_load_for_evaluation` over the filesystem: the record store
must exist, and `readFail` models an I/O exception while reading. -/
def loadEvalFS (fs : FS) (out : String) (readFail : Bool) : Option LoadState :=
  if (fs out).isNone then none
  else if readFail then none
  else some (evalLoadSt ((fs.linesAt out).getD [])
    ((fs.linesAt (evalLogPath out)).getD []))

/-- Model of `run_inference_multithread`: abort on load failure; with no
pending tasks merge a leftover log (if any) and stop; otherwise run the
workers, append each result to the inference log, and merge. In this
sequential, interrupt-free model `run_successful` is always true, so the
merge always runs after the pool drains. -/
def runInferStage (runners : String → Bool) (api : Record → Except String JVal)
    (dur : Record → ℚ) (fs : FS) (out : String)
    (readFail : Bool) (mergeFail : Option RwFail) : FS :=
  match loadInferFS fs out readFail with
  | none => fs
  | some st =>
    let tasks := inferTasks st
    if tasks.isEmpty then
      if (fs (inferLogPath out)).isSome then mergeInferLogToMain fs out st.map mergeFail
      else fs
    else
      let res := runInferWorkers runners api dur fs (inferLogPath out) st.map tasks
      mergeInferLogToMain res.1 out res.2 mergeFail

/-- Outcome of the pre-evaluation check on a leftover inference log:
abort the evaluation stage, or continue with the filesystem so far. -/
inductive PreRes where
  | abort (fs : FS)
  | go (fs : FS)

/-- Pre-check of `evaluate_and_save` (pipeline.py 428-438): when the
inference log still exists, reload the inference state and merge it; the
stage aborts when that load fails or when the log still exists after the
merge attempt. -/
def evalPreCheck (fs : FS) (out : String) (inferReadFail : Bool)
    (preMergeFail : Option RwFail) : PreRes :=
  if (fs (inferLogPath out)).isSome then
    match loadInferFS fs out inferReadFail with
    | none => .abort fs
    | some st =>
      let fs1 := mergeInferLogToMain fs out st.map preMergeFail
      if (fs1 (inferLogPath out)).isSome then .abort fs1 else .go fs1
  else .go fs

/-- Model of `evaluate_and_save`: pre-check the inference log, load the
evaluation state, and either merge a leftover evaluation log (no pending
tasks) or run the evaluation workers and merge. -/
def runEvalStage (runners : String → Bool) (evalApi : Record → Except String JVal)
    (dur : Record → ℚ) (fs : FS) (out : String) (inferReadFail : Bool)
    (preMergeFail : Option RwFail) (evalReadFail : Bool)
    (mergeFail : Option RwFail) : FS :=
  match evalPreCheck fs out inferReadFail preMergeFail with
  | .abort fs1 => fs1
  | .go fs1 =>
    match loadEvalFS fs1 out evalReadFail with
    | none => fs1
    | some st =>
      let tasks := evalTasks st
      if tasks.isEmpty then
        if (fs1 (evalLogPath out)).isSome then mergeEvalLogToMain fs1 out st.map mergeFail
        else fs1
      else
        let res := runEvalWorkers runners evalApi dur fs1 (evalLogPath out) st.map tasks
        mergeEvalLogToMain res.1 out res.2 mergeFail

theorem strStartsWith_append (a b pre : String)
    (h : strStartsWith a pre = true) : strStartsWith (a ++ b) pre = true := by
  unfold strStartsWith at h ⊢
  rw [List.isPrefixOf_iff_prefix] at h ⊢
  rw [String.data_append]
  exact h.trans (List.prefix_append a.data b.data)

theorem inferErrMsg_startsWith (id msg : String) :
    strStartsWith (inferErrMsg id msg) "ERROR:" = true := by
  unfold inferErrMsg
  apply strStartsWith_append
  apply strStartsWith_append
  apply strStartsWith_append
  decide

theorem FS.linesAt_set_jsonl (fs : FS) (p : String) (ls : List Line) :
    (fs.set p (some (.jsonl ls))).linesAt p = some ls := by
  unfold FS.linesAt
  rw [FS.set_self]

/-- Per-task effect of the inference pool on the stage log: every pending
record with an id contributes exactly one appended line holding its
worker result, independent of every other item's outcome. -/
theorem runInferWorkers_log (runners : String → Bool)
    (api : Record → Except String JVal) (dur : Record → ℚ) :
    ∀ (tasks : List Record) (fs0 : FS) (logPath : String)
      (m : List (String × Record)),
      (((runInferWorkers runners api dur fs0 logPath m tasks).1).linesAt
          logPath).getD [] =
        ((fs0.linesAt logPath).getD []) ++
          tasks.filterMap (fun t =>
            if t.sample_id = "" then none
            else some (Line.obj (inferWorker runners api dur t))) := by
  intro tasks
  induction tasks with
  | nil => intro fs0 lp m; simp [runInferWorkers]
  | cons t ts ih =>
    intro fs0 lp m
    show (((runInferWorkers runners api dur
        (appendRecordLine fs0 lp (inferWorker runners api dur t)) lp
        (if t.sample_id = "" then m
         else setRec m t.sample_id (inferWorker runners api dur t)) ts).1).linesAt
          lp).getD [] = _
    rw [ih]
    by_cases h0 : t.sample_id = ""
    · have hr : (inferWorker runners api dur t).sample_id = t.sample_id := rfl
      simp [appendRecordLine, hr, h0]
    · have hr : (inferWorker runners api dur t).sample_id = t.sample_id := rfl
      rw [appendRecordLine, hr, if_neg h0, FS.linesAt_set_jsonl]
      simp [h0, List.filterMap_cons]

/-- Per-task effect of the evaluation pool on the stage log. -/
theorem runEvalWorkers_log (runners : String → Bool)
    (evalApi : Record → Except String JVal) (dur : Record → ℚ) :
    ∀ (tasks : List Record) (fs0 : FS) (logPath : String)
      (m : List (String × Record)),
      (((runEvalWorkers runners evalApi dur fs0 logPath m tasks).1).linesAt
          logPath).getD [] =
        ((fs0.linesAt logPath).getD []) ++
          tasks.filterMap (fun t =>
            if t.sample_id = "" then none
            else some (Line.obj (evalWorker runners evalApi dur t))) := by
  intro tasks
  induction tasks with
  | nil => intro fs0 lp m; simp [runEvalWorkers]
  | cons t ts ih =>
    intro fs0 lp m
    show (((runEvalWorkers runners evalApi dur
        (appendRecordLine fs0 lp (evalWorker runners evalApi dur t)) lp
        (if t.sample_id = "" then m
         else setRec m t.sample_id (evalWorker runners evalApi dur t)) ts).1).linesAt
          lp).getD [] = _
    rw [ih]
    by_cases h0 : t.sample_id = ""
    · have hr : (evalWorker runners evalApi dur t).sample_id = t.sample_id := rfl
      simp [appendRecordLine, hr, h0]
    · have hr : (evalWorker runners evalApi dur t).sample_id = t.sample_id := rfl
      rw [appendRecordLine, hr, if_neg h0, FS.linesAt_set_jsonl]
      simp [h0, List.filterMap_cons]

/-! Claim C8. -/

/-- Error shape of the inference worker under a failing processor. -/
theorem inferWorker_answer_error (runners : String → Bool)
    (api : Record → Except String JVal) (dur : Record → ℚ)
    (item : Record) (msg : String) (herr : api item = .error msg) :
    ∃ s, (inferWorker runners api dur item).answer = some (.jstr s) ∧
      strStartsWith s "ERROR:" = true := by
  rcases htp : item.task_path with _ | tp
  · exact ⟨inferErrMsg (workerIdStr item) "ValueError: Missing 'task_config.task_path'",
      by simp [inferWorker, htp], inferErrMsg_startsWith _ _⟩
  · by_cases htpe : tp = ""
    · exact ⟨inferErrMsg (workerIdStr item) "ValueError: Missing 'task_config.task_path'",
        by simp [inferWorker, htp, htpe], inferErrMsg_startsWith _ _⟩
    · by_cases hrun : runners tp = true
      · rcases hp : item.prompt with _ | p
        · exact ⟨inferErrMsg (workerIdStr item) "ValueError: Missing 'prompt'",
            by simp [inferWorker, htp, htpe, hrun, hp], inferErrMsg_startsWith _ _⟩
        · cases p with
          | jnull =>
            exact ⟨inferErrMsg (workerIdStr item) "ValueError: Missing 'prompt'",
              by simp [inferWorker, htp, htpe, hrun, hp], inferErrMsg_startsWith _ _⟩
          | jstr s0 =>
            by_cases hs0 : s0 = promptFailedStr
            · exact ⟨"ERROR: Skipped due to prompt generation failure",
                by simp [inferWorker, htp, htpe, hrun, hp, hs0], by decide⟩
            · exact ⟨inferErrMsg (workerIdStr item) msg,
                by simp [inferWorker, htp, htpe, hrun, hp, hs0, herr],
                inferErrMsg_startsWith _ _⟩
          | jbool b =>
            exact ⟨inferErrMsg (workerIdStr item) msg,
              by simp [inferWorker, htp, htpe, hrun, hp, herr],
              inferErrMsg_startsWith _ _⟩
          | jnum q =>
            exact ⟨inferErrMsg (workerIdStr item) msg,
              by simp [inferWorker, htp, htpe, hrun, hp, herr],
              inferErrMsg_startsWith _ _⟩
          | jobj fields =>
            exact ⟨inferErrMsg (workerIdStr item) msg,
              by simp [inferWorker, htp, htpe, hrun, hp, herr],
              inferErrMsg_startsWith _ _⟩
          | jother ne =>
            exact ⟨inferErrMsg (workerIdStr item) msg,
              by simp [inferWorker, htp, htpe, hrun, hp, herr],
              inferErrMsg_startsWith _ _⟩
      · exact ⟨inferErrMsg (workerIdStr item)
            ("ValueError: TaskRunner not found for path '" ++ tp ++ "'"),
          by simp [inferWorker, htp, htpe, hrun], inferErrMsg_startsWith _ _⟩

/-- Error shape of the evaluation worker under a failing processor. -/
theorem evalWorker_results_error (runners : String → Bool)
    (evalApi : Record → Except String JVal) (dur : Record → ℚ)
    (item : Record) (msg : String) (herr : evalApi item = .error msg) :
    ∃ fields, (evalWorker runners evalApi dur item).evaluation_results =
      some (.jobj fields) ∧ (dictGet fields "error").isSome = true := by
  rcases htp : item.task_path with _ | tp
  · exact ⟨[("error", .lstr (evalErrMsg (workerIdStr item)
        "ValueError: Missing 'task_config.task_path'"))],
      by simp [evalWorker, htp], rfl⟩
  · by_cases htpe : tp = ""
    · exact ⟨[("error", .lstr (evalErrMsg (workerIdStr item)
          "ValueError: Missing 'task_config.task_path'"))],
        by simp [evalWorker, htp, htpe], rfl⟩
    · by_cases hrun : runners tp = true
      · exact ⟨[("error", .lstr (evalErrMsg (workerIdStr item) msg))],
          by simp [evalWorker, htp, htpe, hrun, herr], rfl⟩
      · exact ⟨[("error", .lstr (evalErrMsg (workerIdStr item)
            ("ValueError: TaskRunner not found for path '" ++ tp ++ "'")))],
          by simp [evalWorker, htp, htpe, hrun], rfl⟩

/-- C8: when the per-item processor raises, the inference worker returns
the record with an answer string starting "ERROR:" and the evaluation
worker returns it with an object carrying an "error" key, instead of
propagating; the duration field of the stage is set on every path
(success or failure, a finally-guarantee); and the stage log receives one
appended line per pending record with an id, each holding that record's
own worker result — so one item's failure never suppresses another
item's processing or append. -/
theorem c8_worker_errors_isolated (runners : String → Bool)
    (api evalApi : Record → Except String JVal) (dur : Record → ℚ)
    (item : Record) (msg : String) :
    (api item = .error msg →
      ∃ s, (inferWorker runners api dur item).answer = some (.jstr s) ∧
        strStartsWith s "ERROR:" = true) ∧
    (inferWorker runners api dur item).inference_duration_sec =
      some (.jnum (dur item)) ∧
    (evalApi item = .error msg →
      ∃ fields, (evalWorker runners evalApi dur item).evaluation_results =
        some (.jobj fields) ∧ (dictGet fields "error").isSome = true) ∧
    (evalWorker runners evalApi dur item).evaluation_duration_sec =
      some (.jnum (dur item)) ∧
    (∀ (tasks : List Record) (fs0 : FS) (logPath : String)
        (m : List (String × Record)),
      (((runInferWorkers runners api dur fs0 logPath m tasks).1).linesAt
          logPath).getD [] =
        ((fs0.linesAt logPath).getD []) ++
          tasks.filterMap (fun t =>
            if t.sample_id = "" then none
            else some (Line.obj (inferWorker runners api dur t)))) ∧
    (∀ (tasks : List Record) (fs0 : FS) (logPath : String)
        (m : List (String × Record)),
      (((runEvalWorkers runners evalApi dur fs0 logPath m tasks).1).linesAt
          logPath).getD [] =
        ((fs0.linesAt logPath).getD []) ++
          tasks.filterMap (fun t =>
            if t.sample_id = "" then none
            else some (Line.obj (evalWorker runners evalApi dur t)))) :=
  ⟨inferWorker_answer_error runners api dur item msg, rfl,
   evalWorker_results_error runners evalApi dur item msg, rfl,
   runInferWorkers_log runners api dur,
   runEvalWorkers_log runners evalApi dur⟩

/-- Runner table of the C8 witness. -/
def c8Runners : String → Bool := fun _ => true

/-- Failing-processor oracle of the C8 witness. -/
def c8Api : Record → Except String JVal := fun _ => .error "ValueError: boom"

/-- Duration oracle of the C8 witness. -/
def c8Dur : Record → ℚ := fun _ => 1

/-- Pending record of the C8 witness. -/
def c8Item : Record :=
  { sample_id := "s", prompt := some (.jstr "p"), task_path := some "t" }

/-- Witness for C8 at a concrete failing processor. -/
theorem c8_witness :
    (∃ s, (inferWorker c8Runners c8Api c8Dur c8Item).answer =
      some (.jstr s) ∧ strStartsWith s "ERROR:" = true) ∧
    (∃ fields, (evalWorker c8Runners c8Api c8Dur c8Item).evaluation_results =
      some (.jobj fields) ∧ (dictGet fields "error").isSome = true) :=
  ⟨(c8_worker_errors_isolated c8Runners c8Api c8Api c8Dur c8Item
      "ValueError: boom").1 rfl,
   (c8_worker_errors_isolated c8Runners c8Api c8Api c8Dur c8Item
      "ValueError: boom").2.2.1 rfl⟩

/-! Claim C9. -/

/-- C9: when the inference stage log still exists at the start of the
evaluation stage, the stage first reloads the inference state and merges
that log; it aborts — leaving the record store, both stage logs, and in
fact every path except the transient rewrite temp file exactly as they
were, reading no evaluation state and deleting nothing — whenever that
load fails, or the merge attempt fails (so the log survives), or the
reloaded map is empty (so no merge is written and the log survives). -/
theorem c9_eval_precheck_abort (runners : String → Bool)
    (evalApi : Record → Except String JVal) (dur : Record → ℚ)
    (fs : FS) (out : String) (iRF eRF : Bool) (pMF mF : Option RwFail)
    (hlog : (fs (inferLogPath out)).isSome = true) :
    (iRF = true →
      runEvalStage runners evalApi dur fs out iRF pMF eRF mF = fs) ∧
    (∀ g, pMF = some g → ∀ p, p ≠ tmpPath out →
      runEvalStage runners evalApi dur fs out iRF pMF eRF mF p = fs p) ∧
    (∀ st, pMF = none → loadInferFS fs out iRF = some st → st.map = [] →
      runEvalStage runners evalApi dur fs out iRF pMF eRF mF = fs) := by
  refine ⟨?_, ?_, ?_⟩
  · intro hi
    subst hi
    have hpre : evalPreCheck fs out true pMF = .abort fs := by
      unfold evalPreCheck
      rw [hlog]
      rfl
    unfold runEvalStage
    rw [hpre]
  · rintro g rfl p hp
    cases hload : loadInferFS fs out iRF with
    | none =>
      have hpre : evalPreCheck fs out iRF (some g) = .abort fs := by
        unfold evalPreCheck
        rw [hlog, hload]
        rfl
      unfold runEvalStage
      rw [hpre]
    | some st =>
      by_cases hm : st.map.isEmpty = true
      · have hmerge : mergeInferLogToMain fs out st.map (some g) = fs := by
          unfold mergeInferLogToMain mergeLogToMain
          rw [if_pos hm]
        have hpre : evalPreCheck fs out iRF (some g) = .abort fs := by
          unfold evalPreCheck
          rw [hlog, hload]
          simp only [hmerge, hlog, if_true]
        unfold runEvalStage
        rw [hpre]
      · have hmerge : mergeInferLogToMain fs out st.map (some g) =
            fs.set (tmpPath out) none := by
          unfold mergeInferLogToMain mergeLogToMain
          rw [if_neg hm]
          cases g <;> rfl
        have hlogNe : (fs.set (tmpPath out) none) (inferLogPath out) =
            fs (inferLogPath out) :=
          FS.set_ne _ _ (inferLogPath_ne_tmpPath out)
        have hpre : evalPreCheck fs out iRF (some g) =
            .abort (fs.set (tmpPath out) none) := by
          unfold evalPreCheck
          rw [hlog, hload]
          simp only [hmerge, hlogNe, hlog, if_true]
        unfold runEvalStage
        rw [hpre]
        exact FS.set_ne _ _ hp
  · rintro st rfl hload hm
    have hmerge : mergeInferLogToMain fs out st.map none = fs := by
      unfold mergeInferLogToMain mergeLogToMain
      rw [hm]
      rfl
    have hpre : evalPreCheck fs out iRF none = .abort fs := by
      unfold evalPreCheck
      rw [hlog, hload]
      simp only [hmerge, hlog, if_true]
    unfold runEvalStage
    rw [hpre]

/-- Filesystem of the C9 witness: only the inference log exists. -/
def c9FS : FS :=
  FS.set (fun _ => none) (inferLogPath "o") (some (.jsonl []))

/-- Witness for C9: a failing inference-state load aborts the evaluation
stage with the filesystem untouched. -/
theorem c9_witness :
    runEvalStage (fun _ => true) (fun _ => .ok (.jstr "x")) (fun _ => 1)
      c9FS "o" true none false none = c9FS :=
  (c9_eval_precheck_abort (fun _ => true) (fun _ => .ok (.jstr "x"))
    (fun _ => 1) c9FS "o" true false none none
    (by rw [c9FS, FS.set_self]; rfl)).1 rfl

/-! Generate stage, analyze stage and the full pipeline run. -/

/-- Model of `generate_prompts` (pipeline.py 44-107): skip when the
record store already exists, or when a stage log from an unresolved
previous run exists; otherwise write the generated initial records with
the safe-rewrite helper. The prompt-generation loop that builds the
records from the task configs and runners is abstracted into the
`initial` argument; a write failure is caught (the function returns
normally with the cleaned-up filesystem of the failed rewrite). -/
def generateStage (fs : FS) (out : String) (initial : List Record)
    (fail : Option RwFail) : FS :=
  if (fs out).isSome then fs
  else if (fs (inferLogPath out)).isSome || (fs (evalLogPath out)).isSome then fs
  else (safeRewriteFile fs out (.jsonl (linesOf initial)) fail).fs

/-- Guard deciding whether a record counts into `items_analyzed` in
`analyze_hierarchical_metrics`: valid evaluation, "longeval/" namespace,
a non-empty remaining path, and a registered non-empty metric list. -/
def analyzedP (registry : String → Option (List String)) (item : Record) : Bool :=
  isValidEval item.evaluation_results &&
  strStartsWith item.task "longeval/" &&
  !((splitSlash item.task).drop 1).isEmpty &&
  (match registry (((splitSlash item.task).drop 1).headD "") with
   | none => false
   | some metrics => !metrics.isEmpty)

/-- Model of `analyze_hierarchical_metrics` as a filesystem step: refuse
to run while a stage log exists or the store is missing; return without
writing when the store holds no lines or no analyzable record; otherwise
safe-rewrite the report. The report path abstracts
`dirname(output_file) + "/" + model + "_metric_report.json"`. -/
def analyzeStage (fs : FS) (out reportPath : String)
    (registry : String → Option (List String)) (fail : Option RwFail) : FS :=
  if (fs (inferLogPath out)).isSome || (fs (evalLogPath out)).isSome then fs
  else if (fs out).isNone then fs
  else
    let ls := (fs.linesAt out).getD []
    if ls.isEmpty then fs
    else if (ls.countP fun l => match l with
        | .junk => false
        | .obj item => analyzedP registry item) = 0 then fs
    else (safeRewriteFile fs reportPath
      (.jsonObj (reportOf (analyzeStats registry ls))) fail).fs

/-- The filesystem before any pipeline run. -/
def emptyFS : FS := fun _ => none

/-- Model of `run_all`: generate, then — unless neither a store nor an
inference log exists — infer, evaluate and analyze, each stage with the
fault knobs clear (an uninterrupted run without infrastructure
failures). -/
def runAll (runners : String → Bool) (api evalApi : Record → Except String JVal)
    (idur edur : Record → ℚ) (registry : String → Option (List String))
    (fs : FS) (out reportPath : String) (initial : List Record) : FS :=
  let f1 := generateStage fs out initial none
  if (f1 out).isNone && (f1 (inferLogPath out)).isNone then f1
  else
    let f2 := runInferStage runners api idur f1 out false none
    let f3 := runEvalStage runners evalApi edur f2 out false none false none
    analyzeStage f3 out reportPath registry none

/-- A record the workers can process without an internal error: a truthy
`task_config.task_path` with a registered runner, and a prompt that is
present, non-null and not the generation-failure sentinel. -/
def workerReady (runners : String → Bool) (r : Record) : Bool :=
  (match r.task_path with
   | some tp => !(decide (tp = "")) && runners tp
   | none => false) &&
  (match r.prompt with
   | some p => !(decide (p = JVal.jnull)) &&
       !(decide (p = JVal.jstr promptFailedStr))
   | none => false)

/-! Small helpers for the idempotence proof. -/

theorem recsOf_linesOf (data : List Record) : recsOf (linesOf data) = data := by
  induction data with
  | nil => rfl
  | cons r rs ih => simpa [recsOf, linesOf] using ih

theorem mem_recsOf {L : List Line} {r : Record} :
    r ∈ recsOf L ↔ Line.obj r ∈ L := by
  constructor
  · intro h
    obtain ⟨l, hl, he⟩ := List.mem_filterMap.mp h
    cases l with
    | junk => cases he
    | obj x => cases he; exact hl
  · intro h
    exact List.mem_filterMap.mpr ⟨Line.obj r, h, rfl⟩

theorem setRec_ne_nil (m : List (String × Record)) (k : String) (v : Record) :
    setRec m k v ≠ [] := by
  cases m with
  | nil => simp [setRec]
  | cons p ps =>
    unfold setRec
    split <;> simp

theorem safeRewriteFile_other (fs : FS) (t : String) (c : FileData)
    (f : Option RwFail) (p : String) (hp1 : p ≠ t) (hp2 : p ≠ tmpPath t) :
    (safeRewriteFile fs t c f).fs p = fs p := by
  cases f with
  | none =>
    show (((fs.set (tmpPath t) (some c)).set (tmpPath t) none).set t (some c)) p = fs p
    rw [FS.set_ne _ _ hp1, FS.set_ne _ _ hp2, FS.set_ne _ _ hp2]
  | some g => cases g <;> exact FS.set_ne _ _ hp2

theorem mergeInfer_none_pointwise (fs : FS) (out : String)
    (m : List (String × Record)) (hm : m ≠ []) :
    mergeInferLogToMain fs out m none out =
      some (.jsonl (linesOf (m.map Prod.snd))) ∧
    mergeInferLogToMain fs out m none (inferLogPath out) = none ∧
    mergeInferLogToMain fs out m none (tmpPath out) = none ∧
    (∀ p, p ≠ out → p ≠ inferLogPath out → p ≠ tmpPath out →
      mergeInferLogToMain fs out m none p = fs p) := by
  have hme : m.isEmpty = false := by
    cases m with
    | nil => exact absurd rfl hm
    | cons a as => rfl
  have h1 : mergeInferLogToMain fs out m none =
      (safeRewriteFile fs out (.jsonl (linesOf (m.map Prod.snd))) none).fs.set
        (inferLogPath out) none := by
    unfold mergeInferLogToMain mergeLogToMain
    rw [hme]
    rfl
  refine ⟨?_, ?_, ?_, ?_⟩
  · rw [h1, FS.set_ne _ _ (Ne.symm (inferLogPath_ne_self out))]
    show (((fs.set (tmpPath out) _).set (tmpPath out) none).set out _) out = _
    rw [FS.set_self]
  · rw [h1, FS.set_self]
  · rw [h1, FS.set_ne _ _ (Ne.symm (inferLogPath_ne_tmpPath out))]
    show (((fs.set (tmpPath out) _).set (tmpPath out) none).set out _) (tmpPath out) = _
    rw [FS.set_ne _ _ (tmpPath_ne_self out), FS.set_self]
  · intro p hp1 hp2 hp3
    rw [h1, FS.set_ne _ _ hp2]
    exact safeRewriteFile_other fs out _ none p hp1 hp3

theorem mergeEval_none_pointwise (fs : FS) (out : String)
    (m : List (String × Record)) (hm : m ≠ []) :
    mergeEvalLogToMain fs out m none out =
      some (.jsonl (linesOf (m.map Prod.snd))) ∧
    mergeEvalLogToMain fs out m none (evalLogPath out) = none ∧
    mergeEvalLogToMain fs out m none (tmpPath out) = none ∧
    (∀ p, p ≠ out → p ≠ evalLogPath out → p ≠ tmpPath out →
      mergeEvalLogToMain fs out m none p = fs p) := by
  have hme : m.isEmpty = false := by
    cases m with
    | nil => exact absurd rfl hm
    | cons a as => rfl
  have h1 : mergeEvalLogToMain fs out m none =
      (safeRewriteFile fs out (.jsonl (linesOf (m.map Prod.snd))) none).fs.set
        (evalLogPath out) none := by
    unfold mergeEvalLogToMain mergeLogToMain
    rw [hme]
    rfl
  refine ⟨?_, ?_, ?_, ?_⟩
  · rw [h1, FS.set_ne _ _ (Ne.symm (evalLogPath_ne_self out))]
    show (((fs.set (tmpPath out) _).set (tmpPath out) none).set out _) out = _
    rw [FS.set_self]
  · rw [h1, FS.set_self]
  · rw [h1, FS.set_ne _ _ (Ne.symm (evalLogPath_ne_tmpPath out))]
    show (((fs.set (tmpPath out) _).set (tmpPath out) none).set out _) (tmpPath out) = _
    rw [FS.set_ne _ _ (tmpPath_ne_self out), FS.set_self]
  · intro p hp1 hp2 hp3
    rw [h1, FS.set_ne _ _ hp2]
    exact safeRewriteFile_other fs out _ none p hp1 hp3

theorem analyzeStage_other (fs : FS) (out rp : String)
    (registry : String → Option (List String)) (fail : Option RwFail)
    (p : String) (hp1 : p ≠ rp) (hp2 : p ≠ tmpPath rp) :
    analyzeStage fs out rp registry fail p = fs p := by
  unfold analyzeStage
  split
  · rfl
  split
  · rfl
  dsimp only
  split
  · rfl
  split
  · rfl
  exact safeRewriteFile_other fs rp _ fail p hp1 hp2

/-! Origin and shape of loader-map entries. -/

theorem foldl_stepLast_cases (id : String) :
    ∀ (ls : List Line) (acc : Option Record) {r : Record},
      ls.foldl (stepLast id) acc = some r →
      acc = some r ∨ Line.obj r ∈ ls := by
  intro ls
  induction ls with
  | nil => intro acc r h; exact Or.inl h
  | cons l ls ih =>
    intro acc r h
    rw [List.foldl_cons] at h
    rcases ih _ h with h1 | h2
    · cases l with
      | junk => exact Or.inl h1
      | obj x =>
        by_cases hx : x.sample_id = id
        · simp only [stepLast, if_pos hx, Option.some.injEq] at h1
          exact Or.inr (h1 ▸ List.mem_cons_self _ _)
        · simp only [stepLast, if_neg hx] at h1
          exact Or.inl h1
    · exact Or.inr (List.mem_cons_of_mem _ h2)

theorem specLastRecord_mem {lines : List Line} {id : String} {r : Record}
    (h : specLastRecord lines id = some r) : Line.obj r ∈ lines := by
  unfold specLastRecord at h
  by_cases hid : id = ""
  · rw [if_pos hid] at h; cases h
  · rw [if_neg hid] at h
    rcases foldl_stepLast_cases id lines none h with h1 | h2
    · cases h1
    · exact h2

theorem foldl_stepLast_noid (id : String) :
    ∀ (ls : List Line) (acc : Option Record),
      (∀ x : Record, Line.obj x ∈ ls → x.sample_id ≠ id) →
      ls.foldl (stepLast id) acc = acc := by
  intro ls
  induction ls with
  | nil => intro acc _; rfl
  | cons l ls ih =>
    intro acc hno
    rw [List.foldl_cons]
    have hstep : stepLast id acc l = acc := by
      cases l with
      | junk => rfl
      | obj x =>
        have hx := hno x (List.mem_cons_self _ _)
        simp [stepLast, hx]
    rw [hstep]
    exact ih acc (fun x hx => hno x (List.mem_cons_of_mem _ hx))

theorem specLastRecord_nodup :
    ∀ (data : List Record), (data.map Record.sample_id).Nodup →
      ∀ {r : Record}, r ∈ data → r.sample_id ≠ "" →
        specLastRecord (linesOf data) r.sample_id = some r := by
  intro data
  induction data with
  | nil => intro _ r hr; cases hr
  | cons a as ih =>
    intro hnd r hr hid
    simp only [List.map_cons, List.nodup_cons] at hnd
    unfold specLastRecord
    rw [if_neg hid]
    show (Line.obj a :: linesOf as).foldl (stepLast r.sample_id) none = some r
    rw [List.foldl_cons]
    rcases List.mem_cons.mp hr with rfl | hmem
    · have hstep : stepLast r.sample_id none (Line.obj r) = some r := by
        simp [stepLast]
      rw [hstep]
      apply foldl_stepLast_noid
      intro x hx hxe
      have hxs : x ∈ as := by
        have := mem_recsOf.mpr hx
        rwa [recsOf_linesOf] at this
      exact hnd.1 (hxe ▸ List.mem_map_of_mem Record.sample_id hxs)
    · have hane : ¬ a.sample_id = r.sample_id :=
        fun he => hnd.1 (he ▸ List.mem_map_of_mem Record.sample_id hmem)
      have hstep : stepLast r.sample_id none (Line.obj a) = none := by
        simp [stepLast, hane]
      rw [hstep]
      have := ih hnd.2 hmem hid
      unfold specLastRecord at this
      rwa [if_neg hid] at this

theorem foldl_stepEvalSpec_noid (id : String) :
    ∀ (ls : List Line) (acc : Option Record),
      (∀ x : Record, Line.obj x ∈ ls → x.sample_id ≠ id) →
      ls.foldl (stepEvalSpec id) acc = acc := by
  intro ls
  induction ls with
  | nil => intro acc _; rfl
  | cons l ls ih =>
    intro acc hno
    rw [List.foldl_cons]
    have hstep : stepEvalSpec id acc l = acc := by
      cases l with
      | junk => rfl
      | obj x =>
        have hx := hno x (List.mem_cons_self _ _)
        simp [stepEvalSpec, hx]
    rw [hstep]
    exact ih acc (fun x hx => hno x (List.mem_cons_of_mem _ hx))

theorem foldEval_shape (id : String) (L : List Line) :
    ∀ (ls : List Line) (acc : Option Record),
      (∀ l ∈ ls, l ∈ L) →
      (acc = none ∨ ∃ b c, Line.obj b ∈ L ∧ Line.obj c ∈ L ∧
        acc = some { b with evaluation_results := c.evaluation_results }) →
      (ls.foldl (stepEvalSpec id) acc = none ∨
       ∃ b c, Line.obj b ∈ L ∧ Line.obj c ∈ L ∧
        ls.foldl (stepEvalSpec id) acc =
          some { b with evaluation_results := c.evaluation_results }) := by
  intro ls
  induction ls with
  | nil => intro acc _ hacc; exact hacc
  | cons l ls ih =>
    intro acc hsub hacc
    rw [List.foldl_cons]
    apply ih (stepEvalSpec id acc l) (fun x hx => hsub x (List.mem_cons_of_mem _ hx))
    cases l with
    | junk => exact hacc
    | obj x =>
      have hxL : Line.obj x ∈ L := hsub _ (List.mem_cons_self _ _)
      by_cases hxi : x.sample_id = id
      · rcases hacc with rfl | ⟨b, c, hb, hc, rfl⟩
        · refine Or.inr ⟨x, x, hxL, hxL, ?_⟩
          simp only [stepEvalSpec, if_pos hxi]
        · by_cases hev : x.evaluation_results.isSome
          · refine Or.inr ⟨b, x, hb, hxL, ?_⟩
            simp only [stepEvalSpec, if_pos hxi, hev, if_true, if_pos rfl]
          · refine Or.inr ⟨b, c, hb, hc, ?_⟩
            simp only [stepEvalSpec, if_pos hxi, hev, Bool.false_eq_true, if_false]
      · rcases hacc with rfl | ⟨b, c, hb, hc, rfl⟩
        · exact Or.inl (by simp [stepEvalSpec, hxi])
        · exact Or.inr ⟨b, c, hb, hc, by simp [stepEvalSpec, hxi]⟩

theorem specEvalRecord_shape {lines : List Line} {id : String} {r : Record}
    (h : specEvalRecord lines id = some r) :
    ∃ b c, Line.obj b ∈ lines ∧ Line.obj c ∈ lines ∧
      r = { b with evaluation_results := c.evaluation_results } := by
  unfold specEvalRecord at h
  by_cases hid : id = ""
  · rw [if_pos hid] at h; cases h
  · rw [if_neg hid] at h
    rcases foldEval_shape id lines lines none (fun l hl => hl) (Or.inl rfl)
      with h1 | ⟨b, c, hb, hc, he⟩
    · rw [h] at h1; cases h1
    · rw [h] at he
      exact ⟨b, c, hb, hc, Option.some.inj he⟩

theorem specEvalRecord_nodup :
    ∀ (data : List Record), (data.map Record.sample_id).Nodup →
      ∀ {r : Record}, r ∈ data → r.sample_id ≠ "" →
        specEvalRecord (linesOf data) r.sample_id = some r := by
  intro data
  induction data with
  | nil => intro _ r hr; cases hr
  | cons a as ih =>
    intro hnd r hr hid
    simp only [List.map_cons, List.nodup_cons] at hnd
    unfold specEvalRecord
    rw [if_neg hid]
    show (Line.obj a :: linesOf as).foldl (stepEvalSpec r.sample_id) none = some r
    rw [List.foldl_cons]
    rcases List.mem_cons.mp hr with rfl | hmem
    · have hstep : stepEvalSpec r.sample_id none (Line.obj r) = some r := by
        simp [stepEvalSpec]
      rw [hstep]
      apply foldl_stepEvalSpec_noid
      intro x hx hxe
      have hxs : x ∈ as := by
        have := mem_recsOf.mpr hx
        rwa [recsOf_linesOf] at this
      exact hnd.1 (hxe ▸ List.mem_map_of_mem Record.sample_id hxs)
    · have hane : ¬ a.sample_id = r.sample_id :=
        fun he => hnd.1 (he ▸ List.mem_map_of_mem Record.sample_id hmem)
      have hstep : stepEvalSpec r.sample_id none (Line.obj a) = none := by
        simp [stepEvalSpec, hane]
      rw [hstep]
      have := ih hnd.2 hmem hid
      unfold specEvalRecord at this
      rwa [if_neg hid] at this

theorem inferLoadSt_entry_mem {main log : List Line} {p : String × Record}
    (hp : p ∈ (inferLoadSt main log).map) : Line.obj p.2 ∈ main ++ log := by
  have hw := inferLoadSt_wellKeyed main log p hp
  have hg := (mem_iff_getRec (inferLoadSt_nodupKeys main log) p).mp hp
  rw [inferLoadSt, foldl_parseInfer_getRec _ _ _ hw.1] at hg
  have hg' : (main ++ log).foldl (stepLast p.1) none = some p.2 := hg
  rcases foldl_stepLast_cases p.1 (main ++ log) none hg' with h1 | h2
  · cases h1
  · exact h2

theorem evalLoadSt_entry_shape {main log : List Line} {p : String × Record}
    (hp : p ∈ (evalLoadSt main log).map) :
    ∃ b c, Line.obj b ∈ main ++ log ∧ Line.obj c ∈ main ++ log ∧
      p.2 = { b with evaluation_results := c.evaluation_results } := by
  have hw := evalLoadSt_wellKeyed main log p hp
  have hg := (mem_iff_getRec (evalLoadSt_nodupKeys main log) p).mp hp
  rw [evalLoadSt, foldl_parseEval_getRec _ _ _ hw.1] at hg
  have hg' : (main ++ log).foldl (stepEvalSpec p.1) none = some p.2 := hg
  rcases foldEval_shape p.1 (main ++ log) (main ++ log) none (fun l hl => hl)
      (Or.inl rfl) with h1 | ⟨b, c, hb, hc, he⟩
  · rw [hg'] at h1; cases h1
  · rw [hg'] at he
    exact ⟨b, c, hb, hc, Option.some.inj he⟩

theorem inferLoadSt_getRec_of_nodup {data : List Record}
    (hnd : (data.map Record.sample_id).Nodup) {r : Record} (hr : r ∈ data)
    (hid : r.sample_id ≠ "") :
    getRec (inferLoadSt (linesOf data) []).map r.sample_id = some r := by
  rw [inferLoadSt, foldl_parseInfer_getRec _ _ _ hid]
  have h := specLastRecord_nodup data hnd hr hid
  unfold specLastRecord at h
  rw [if_neg hid] at h
  show (linesOf data ++ []).foldl (stepLast r.sample_id) none = some r
  rwa [List.append_nil]

theorem evalLoadSt_getRec_of_nodup {data : List Record}
    (hnd : (data.map Record.sample_id).Nodup) {r : Record} (hr : r ∈ data)
    (hid : r.sample_id ≠ "") :
    getRec (evalLoadSt (linesOf data) []).map r.sample_id = some r := by
  rw [evalLoadSt, foldl_parseEval_getRec _ _ _ hid]
  have h := specEvalRecord_nodup data hnd hr hid
  unfold specEvalRecord at h
  rw [if_neg hid] at h
  show (linesOf data ++ []).foldl (stepEvalSpec r.sample_id) none = some r
  rwa [List.append_nil]

/-! Worker behaviour on processable records. -/

theorem inferWorker_ready {runners : String → Bool}
    {api : Record → Except String JVal} {dur : Record → ℚ} {r : Record}
    (h : workerReady runners r = true) {v : JVal} (hv : api r = .ok v) :
    inferWorker runners api dur r =
      { r with
          answer := some v,
          inference_duration_sec := some (.jnum (dur r)) } := by
  unfold workerReady at h
  rw [Bool.and_eq_true] at h
  obtain ⟨h1, h2⟩ := h
  rcases htp : r.task_path with _ | tp
  · rw [htp] at h1; cases h1
  · rw [htp] at h1
    simp only [Bool.and_eq_true, Bool.not_eq_true', decide_eq_false_iff_not] at h1
    obtain ⟨htpe, hrun⟩ := h1
    rcases hp : r.prompt with _ | p
    · rw [hp] at h2; cases h2
    · rw [hp] at h2
      simp only [Bool.and_eq_true, Bool.not_eq_true', decide_eq_false_iff_not] at h2
      obtain ⟨hpn, hpf⟩ := h2
      cases p with
      | jnull => exact absurd rfl hpn
      | jstr s => simp [inferWorker, htp, htpe, hrun, hp, hpf, hv]
      | jbool b => simp [inferWorker, htp, htpe, hrun, hp, hv]
      | jnum q => simp [inferWorker, htp, htpe, hrun, hp, hv]
      | jobj fields => simp [inferWorker, htp, htpe, hrun, hp, hv]
      | jother ne => simp [inferWorker, htp, htpe, hrun, hp, hv]

theorem evalWorker_ready {runners : String → Bool}
    {evalApi : Record → Except String JVal} {dur : Record → ℚ} {r : Record}
    (h : workerReady runners r = true) {v : JVal} (hv : evalApi r = .ok v) :
    evalWorker runners evalApi dur r =
      { r with
          evaluation_results := some v,
          evaluation_duration_sec := some (.jnum (dur r)) } := by
  unfold workerReady at h
  rw [Bool.and_eq_true] at h
  obtain ⟨h1, _⟩ := h
  rcases htp : r.task_path with _ | tp
  · rw [htp] at h1; cases h1
  · rw [htp] at h1
    simp only [Bool.and_eq_true, Bool.not_eq_true', decide_eq_false_iff_not] at h1
    obtain ⟨htpe, hrun⟩ := h1
    simp [evalWorker, htp, htpe, hrun, hv]

/-! The worker pools' effect on the in-memory map, generically over the
worker function (both stage steps share the shape: append the worker
result to the log, then key it into the map under the task's id). -/

theorem workerFold_getRec (w : Record → Record) (lp : String) :
    ∀ (tasks : List Record) (fs : FS) (m : List (String × Record))
      (id : String), id ≠ "" →
      getRec ((tasks.foldl (fun acc t =>
          (appendRecordLine acc.1 lp (w t),
           if t.sample_id = "" then acc.2
           else setRec acc.2 t.sample_id (w t))) (fs, m)).2) id =
        tasks.foldl (fun acc t =>
          if t.sample_id = id then some (w t) else acc) (getRec m id) := by
  intro tasks
  induction tasks with
  | nil => intro fs m id _; rfl
  | cons t ts ih =>
    intro fs m id hid
    rw [List.foldl_cons, List.foldl_cons, ih _ _ _ hid]
    congr 1
    by_cases h0 : t.sample_id = ""
    · have hne : ¬ t.sample_id = id := fun h => hid (h.symm.trans h0)
      rw [if_pos h0, if_neg hne]
    · rw [if_neg h0]
      by_cases hti : t.sample_id = id
      · subst hti
        rw [if_pos rfl, getRec_setRec_self]
      · rw [if_neg hti, getRec_setRec_ne _ _ _ _ (Ne.symm hti)]

theorem workerFold_nodupKeys (w : Record → Record) (lp : String) :
    ∀ (tasks : List Record) (fs : FS) (m : List (String × Record)),
      (m.map Prod.fst).Nodup →
      (((tasks.foldl (fun acc t =>
          (appendRecordLine acc.1 lp (w t),
           if t.sample_id = "" then acc.2
           else setRec acc.2 t.sample_id (w t))) (fs, m)).2).map Prod.fst).Nodup := by
  intro tasks
  induction tasks with
  | nil => intro fs m h; exact h
  | cons t ts ih =>
    intro fs m h
    rw [List.foldl_cons]
    apply ih
    by_cases h0 : t.sample_id = ""
    · rwa [if_pos h0]
    · rw [if_neg h0]
      exact nodupKeys_setRec _ _ h

theorem workerFold_wellKeyed (w : Record → Record) (lp : String)
    (hw : ∀ t, (w t).sample_id = t.sample_id) :
    ∀ (tasks : List Record) (fs : FS) (m : List (String × Record)),
      WellKeyed m →
      WellKeyed ((tasks.foldl (fun acc t =>
          (appendRecordLine acc.1 lp (w t),
           if t.sample_id = "" then acc.2
           else setRec acc.2 t.sample_id (w t))) (fs, m)).2) := by
  intro tasks
  induction tasks with
  | nil => intro fs m h; exact h
  | cons t ts ih =>
    intro fs m h
    rw [List.foldl_cons]
    apply ih
    by_cases h0 : t.sample_id = ""
    · rwa [if_pos h0]
    · rw [if_neg h0]
      exact wellKeyed_setRec h h0 (hw t)

theorem workerFold_map_ne_nil (w : Record → Record) (lp : String) :
    ∀ (tasks : List Record) (fs : FS) (m : List (String × Record)),
      m ≠ [] →
      ((tasks.foldl (fun acc t =>
          (appendRecordLine acc.1 lp (w t),
           if t.sample_id = "" then acc.2
           else setRec acc.2 t.sample_id (w t))) (fs, m)).2) ≠ [] := by
  intro tasks
  induction tasks with
  | nil => intro fs m h; exact h
  | cons t ts ih =>
    intro fs m h
    rw [List.foldl_cons]
    apply ih
    by_cases h0 : t.sample_id = ""
    · rwa [if_pos h0]
    · rw [if_neg h0]
      exact setRec_ne_nil m t.sample_id (w t)

theorem foldl_pick_cases (w : Record → Record) (id : String) :
    ∀ (tasks : List Record) (a : Option Record) {r : Record},
      tasks.foldl (fun acc t =>
        if t.sample_id = id then some (w t) else acc) a = some r →
      (∃ t ∈ tasks, r = w t) ∨ (a = some r ∧ ∀ t ∈ tasks, t.sample_id ≠ id) := by
  intro tasks
  induction tasks with
  | nil =>
    intro a r h
    exact Or.inr ⟨h, fun t ht => absurd ht (List.not_mem_nil t)⟩
  | cons t ts ih =>
    intro a r h
    rw [List.foldl_cons] at h
    rcases ih _ h with ⟨t', ht', he⟩ | ⟨ha, hno⟩
    · exact Or.inl ⟨t', List.mem_cons_of_mem _ ht', he⟩
    · by_cases hti : t.sample_id = id
      · rw [if_pos hti] at ha
        exact Or.inl ⟨t, List.mem_cons_self _ _, (Option.some.inj ha).symm⟩
      · rw [if_neg hti] at ha
        refine Or.inr ⟨ha, ?_⟩
        intro x hx
        rcases List.mem_cons.mp hx with rfl | hxm
        · exact hti
        · exact hno x hxm

theorem workerFold_entries (w : Record → Record) (lp : String)
    (hw : ∀ t, (w t).sample_id = t.sample_id)
    (tasks : List Record) (fs : FS) (m : List (String × Record))
    (hnodup : (m.map Prod.fst).Nodup) (hwk : WellKeyed m)
    (Q : Record → Prop)
    (hold : ∀ p ∈ m, (∀ t ∈ tasks, t.sample_id ≠ p.1) → Q p.2)
    (hnew : ∀ t ∈ tasks, Q (w t)) :
    ∀ p ∈ (tasks.foldl (fun acc t =>
        (appendRecordLine acc.1 lp (w t),
         if t.sample_id = "" then acc.2
         else setRec acc.2 t.sample_id (w t))) (fs, m)).2, Q p.2 := by
  intro p hp
  have hnd' := workerFold_nodupKeys w lp tasks fs m hnodup
  have hwk' := workerFold_wellKeyed w lp hw tasks fs m hwk
  have hg := (mem_iff_getRec hnd' p).mp hp
  have hid : p.1 ≠ "" := (hwk' p hp).1
  rw [workerFold_getRec w lp tasks fs m p.1 hid] at hg
  rcases foldl_pick_cases w p.1 tasks _ hg with ⟨t, ht, he⟩ | ⟨ha, hno⟩
  · exact he ▸ hnew t ht
  · have hpm : p ∈ m := by
      rw [← Prod.mk.eta (p := p)]
      exact getRec_some_mem ha
    exact hold p hpm hno

theorem appendRecordLine_other (fs : FS) (lp : String) (r : Record)
    {p : String} (hp : p ≠ lp) : appendRecordLine fs lp r p = fs p := by
  unfold appendRecordLine
  split
  · rfl
  · exact FS.set_ne _ _ hp

theorem workerFold_fs_other (w : Record → Record) (lp : String) :
    ∀ (tasks : List Record) (fs : FS) (m : List (String × Record))
      {p : String}, p ≠ lp →
      ((tasks.foldl (fun acc t =>
          (appendRecordLine acc.1 lp (w t),
           if t.sample_id = "" then acc.2
           else setRec acc.2 t.sample_id (w t))) (fs, m)).1) p = fs p := by
  intro tasks
  induction tasks with
  | nil => intro fs m p _; rfl
  | cons t ts ih =>
    intro fs m p hp
    rw [List.foldl_cons]
    rw [ih _ _ hp]
    exact appendRecordLine_other fs lp (w t) hp

theorem workerReady_prompt_ok {runners : String → Bool} {r : Record}
    (h : workerReady runners r = true) :
    r.prompt ≠ some (.jstr promptFailedStr) := by
  unfold workerReady at h
  rw [Bool.and_eq_true] at h
  obtain ⟨_, h2⟩ := h
  rcases hp : r.prompt with _ | p
  · rw [hp] at h2; cases h2
  · rw [hp] at h2
    simp only [Bool.and_eq_true, Bool.not_eq_true', decide_eq_false_iff_not] at h2
    intro he
    exact h2.2 (Option.some.inj he)

theorem wellKeyed_ids_eq_keys {m : List (String × Record)} (h : WellKeyed m) :
    m.map (fun p => p.2.sample_id) = m.map Prod.fst :=
  List.map_congr_left fun p hp => (h p hp).2

/-! State predicates of the idempotence argument. -/

/-- Shape of the records `generate_prompts` produces in a failure-free
run: a non-empty sample id, worker-processable fields, and no
error-marked evaluation results. -/
def InitOK (runners : String → Bool) (r : Record) : Prop :=
  r.sample_id ≠ "" ∧ workerReady runners r = true ∧
    isEvalError r.evaluation_results = false

/-- Record-store state between the inference and evaluation stages of a
failure-free run. -/
def MidGood (runners : String → Bool) (fs : FS) (out : String) : Prop :=
  ∃ data : List Record, fs out = some (.jsonl (linesOf data)) ∧
    (data.map Record.sample_id).Nodup ∧
    (∀ r ∈ data, InitOK runners r ∧ isValidAnswer r.answer = true) ∧
    fs (inferLogPath out) = none ∧ fs (evalLogPath out) = none

/-- Record-store state after a fully successful run: every stored record
validly answered and validly evaluated, both stage logs merged away. -/
def EndGood (fs : FS) (out : String) : Prop :=
  ∃ data : List Record, fs out = some (.jsonl (linesOf data)) ∧
    (data.map Record.sample_id).Nodup ∧
    (∀ r ∈ data, r.sample_id ≠ "" ∧ isValidAnswer r.answer = true ∧
      isValidEval r.evaluation_results = true) ∧
    fs (inferLogPath out) = none ∧ fs (evalLogPath out) = none

/-- A failure-free inference stage takes a freshly generated store to the
mid-state: every stored record processable and validly answered, and the
inference log merged away. -/
theorem runInferStage_establishes (runners : String → Bool)
    (api : Record → Except String JVal) (dur : Record → ℚ) (out : String)
    (hapi : ∀ r, ∃ v, api r = .ok v ∧ isValidAnswer (some v) = true)
    (fs : FS) (initial : List Record)
    (hout : fs out = some (.jsonl (linesOf initial)))
    (hilog : fs (inferLogPath out) = none)
    (helog : fs (evalLogPath out) = none)
    (hinit : ∀ r ∈ initial, InitOK runners r)
    (hnd : (initial.map Record.sample_id).Nodup) :
    MidGood runners (runInferStage runners api dur fs out false none) out := by
  have hlines : (fs.linesAt out).getD [] = linesOf initial := by
    unfold FS.linesAt
    rw [hout]
    rfl
  have hlogl : (fs.linesAt (inferLogPath out)).getD [] = ([] : List Line) := by
    unfold FS.linesAt
    rw [hilog]
    rfl
  have hload : loadInferFS fs out false =
      some (inferLoadSt (linesOf initial) []) := by
    unfold loadInferFS
    rw [hlines, hlogl, hout]
    simp
  have hentry : ∀ p ∈ (inferLoadSt (linesOf initial) []).map, p.2 ∈ initial := by
    intro p hp
    have h1 := inferLoadSt_entry_mem hp
    rw [List.append_nil] at h1
    have h2 := mem_recsOf.mpr h1
    rwa [recsOf_linesOf] at h2
  have hpredfalse_valid : ∀ p ∈ (inferLoadSt (linesOf initial) []).map,
      ¬ ((!(decide (p.1 ∈ (inferLoadSt (linesOf initial) []).done)) &&
          (!isErrorAnswer p.2.answer || retryErrorsDefault) &&
          !(decide (p.2.prompt = some (.jstr promptFailedStr)))) = true) →
      isValidAnswer p.2.answer = true := by
    intro p hp hpred
    have hdone : p.1 ∈ (inferLoadSt (linesOf initial) []).done := by
      by_contra hnot
      apply hpred
      have hro := hinit p.2 (hentry p hp)
      simp [hnot, retryErrorsDefault, workerReady_prompt_ok hro.2.1]
    obtain ⟨r', hr', hv⟩ := (inferLoadSt_doneInv _ _ p.1).mp hdone
    have hg := (mem_iff_getRec (inferLoadSt_nodupKeys _ _) p).mp hp
    have he : p.2 = r' := Option.some.inj (hg.symm.trans hr')
    rwa [← he] at hv
  by_cases htasks : inferTasks (inferLoadSt (linesOf initial) []) = []
  · have hres : runInferStage runners api dur fs out false none = fs := by
      unfold runInferStage
      rw [hload]
      simp [htasks, hilog]
    rw [hres]
    refine ⟨initial, hout, hnd, ?_, hilog, helog⟩
    · intro r hr
      have hro := hinit r hr
      refine ⟨hro, ?_⟩
      have hgr : getRec (inferLoadSt (linesOf initial) []).map r.sample_id =
          some r := inferLoadSt_getRec_of_nodup hnd hr hro.1
      have hmem : (r.sample_id, r) ∈ (inferLoadSt (linesOf initial) []).map :=
        (mem_iff_getRec (inferLoadSt_nodupKeys _ _) (r.sample_id, r)).mpr hgr
      unfold inferTasks inferTasksWith at htasks
      have hfil := List.map_eq_nil_iff.mp htasks
      have hpred := List.filter_eq_nil_iff.mp hfil (r.sample_id, r) hmem
      exact hpredfalse_valid (r.sample_id, r) hmem hpred
  · have hTe : (inferTasks (inferLoadSt (linesOf initial) [])).isEmpty = false :=
      List.isEmpty_eq_false.mpr htasks
    have hmne : (inferLoadSt (linesOf initial) []).map ≠ [] := by
      intro hnil
      apply htasks
      unfold inferTasks inferTasksWith
      rw [hnil]
      rfl
    have hres : runInferStage runners api dur fs out false none =
        mergeInferLogToMain
          ((runInferWorkers runners api dur fs (inferLogPath out)
            (inferLoadSt (linesOf initial) []).map
            (inferTasks (inferLoadSt (linesOf initial) []))).1) out
          ((runInferWorkers runners api dur fs (inferLogPath out)
            (inferLoadSt (linesOf initial) []).map
            (inferTasks (inferLoadSt (linesOf initial) []))).2) none := by
      unfold runInferStage
      rw [hload]
      simp [hTe]
    have hM : ∀ p ∈ (runInferWorkers runners api dur fs (inferLogPath out)
        (inferLoadSt (linesOf initial) []).map
        (inferTasks (inferLoadSt (linesOf initial) []))).2,
        InitOK runners p.2 ∧ isValidAnswer p.2.answer = true := by
      refine workerFold_entries (inferWorker runners api dur) (inferLogPath out)
        (fun t => rfl)
        (inferTasks (inferLoadSt (linesOf initial) []))
        fs (inferLoadSt (linesOf initial) []).map
        (inferLoadSt_nodupKeys _ _) (inferLoadSt_wellKeyed _ _)
        (fun r => InitOK runners r ∧ isValidAnswer r.answer = true) ?_ ?_
      · intro p hp hno
        have hro : InitOK runners p.2 := hinit p.2 (hentry p hp)
        refine ⟨hro, ?_⟩
        apply hpredfalse_valid p hp
        intro hpred
        apply hno p.2 ?_ ((inferLoadSt_wellKeyed _ _ p hp).2)
        unfold inferTasks inferTasksWith
        exact List.mem_map.mpr ⟨p, List.mem_filter.mpr ⟨hp, hpred⟩, rfl⟩
      · intro t ht
        have htm : t ∈ initial := by
          unfold inferTasks inferTasksWith at ht
          obtain ⟨p, hpf, hps⟩ := List.mem_map.mp ht
          exact hps ▸ hentry p (List.mem_of_mem_filter hpf)
        have hro := hinit t htm
        obtain ⟨v, hv, hvv⟩ := hapi t
        rw [inferWorker_ready hro.2.1 hv]
        exact ⟨⟨hro.1, hro.2.1, hro.2.2⟩, hvv⟩
    have hMne : (runInferWorkers runners api dur fs (inferLogPath out)
        (inferLoadSt (linesOf initial) []).map
        (inferTasks (inferLoadSt (linesOf initial) []))).2 ≠ [] :=
      workerFold_map_ne_nil (inferWorker runners api dur) (inferLogPath out)
        _ fs _ hmne
    obtain ⟨ho1, ho2, ho3, ho4⟩ :=
      mergeInfer_none_pointwise
        ((runInferWorkers runners api dur fs (inferLogPath out)
          (inferLoadSt (linesOf initial) []).map
          (inferTasks (inferLoadSt (linesOf initial) []))).1) out
        ((runInferWorkers runners api dur fs (inferLogPath out)
          (inferLoadSt (linesOf initial) []).map
          (inferTasks (inferLoadSt (linesOf initial) []))).2) hMne
    rw [hres]
    have hEvalNe1 : evalLogPath out ≠ inferLogPath out :=
      append_ne_of_length_ne out (by decide)
    refine ⟨((runInferWorkers runners api dur fs (inferLogPath out)
        (inferLoadSt (linesOf initial) []).map
        (inferTasks (inferLoadSt (linesOf initial) []))).2).map Prod.snd,
      ho1, ?_, ?_, ho2, ?_⟩
    · rw [List.map_map]
      have hwk2 : WellKeyed ((runInferWorkers runners api dur fs (inferLogPath out)
          (inferLoadSt (linesOf initial) []).map
          (inferTasks (inferLoadSt (linesOf initial) []))).2) :=
        workerFold_wellKeyed (inferWorker runners api dur)
          (inferLogPath out) (fun t => rfl)
          (inferTasks (inferLoadSt (linesOf initial) []))
          fs (inferLoadSt (linesOf initial) []).map
          (inferLoadSt_wellKeyed _ _)
      have hnd2 : (((runInferWorkers runners api dur fs (inferLogPath out)
          (inferLoadSt (linesOf initial) []).map
          (inferTasks (inferLoadSt (linesOf initial) []))).2).map Prod.fst).Nodup :=
        workerFold_nodupKeys (inferWorker runners api dur) (inferLogPath out)
          _ fs _ (inferLoadSt_nodupKeys _ _)
      rw [show (Record.sample_id ∘ Prod.snd) =
          (fun p : String × Record => p.2.sample_id) from rfl]
      rw [wellKeyed_ids_eq_keys hwk2]
      exact hnd2
    · intro r hr
      obtain ⟨p, hpM, hps⟩ := List.mem_map.mp hr
      exact hps ▸ hM p hpM
    · rw [ho4 (evalLogPath out) (evalLogPath_ne_self out) hEvalNe1
        (evalLogPath_ne_tmpPath out)]
      have hfs2 : (runInferWorkers runners api dur fs (inferLogPath out)
          (inferLoadSt (linesOf initial) []).map
          (inferTasks (inferLoadSt (linesOf initial) []))).1 (evalLogPath out)
          = fs (evalLogPath out) :=
        workerFold_fs_other (inferWorker runners api dur) (inferLogPath out)
          (inferTasks (inferLoadSt (linesOf initial) [])) fs
          (inferLoadSt (linesOf initial) []).map hEvalNe1
      rw [hfs2]
      exact helog

/-- A failure-free evaluation stage takes the mid-state to the end
state: every stored record validly answered and validly evaluated, and
both stage logs merged away. -/
theorem runEvalStage_establishes (runners : String → Bool)
    (evalApi : Record → Except String JVal) (dur : Record → ℚ) (out : String)
    (hapi : ∀ r, ∃ v, evalApi r = .ok v ∧ isValidEval (some v) = true)
    (fs : FS) (hmid : MidGood runners fs out) :
    EndGood (runEvalStage runners evalApi dur fs out false none false none) out := by
  obtain ⟨data, hout, hnd, hall, hilog, helog⟩ := hmid
  have hpre : evalPreCheck fs out false none = .go fs := by
    unfold evalPreCheck
    rw [hilog]
    rfl
  have hlines : (fs.linesAt out).getD [] = linesOf data := by
    unfold FS.linesAt
    rw [hout]
    rfl
  have hlogl : (fs.linesAt (evalLogPath out)).getD [] = ([] : List Line) := by
    unfold FS.linesAt
    rw [helog]
    rfl
  have hload : loadEvalFS fs out false =
      some (evalLoadSt (linesOf data) []) := by
    unfold loadEvalFS
    rw [hlines, hlogl, hout]
    simp
  have hmemd : ∀ {r : Record}, Line.obj r ∈ linesOf data → r ∈ data := by
    intro r h
    have h2 := mem_recsOf.mpr h
    rwa [recsOf_linesOf] at h2
  have hP : ∀ p ∈ (evalLoadSt (linesOf data) []).map,
      p.2.sample_id ≠ "" ∧ isValidAnswer p.2.answer = true ∧
      workerReady runners p.2 = true ∧
      isEvalError p.2.evaluation_results = false := by
    intro p hp
    obtain ⟨b, c, hb, hc, he⟩ := evalLoadSt_entry_shape hp
    rw [List.append_nil] at hb hc
    have hbI := hall b (hmemd hb)
    have hcI := hall c (hmemd hc)
    rw [he]
    exact ⟨hbI.1.1, hbI.2, hbI.1.2.1, hcI.1.2.2⟩
  have hpredfalse_eval : ∀ p ∈ (evalLoadSt (linesOf data) []).map,
      ¬ ((isValidAnswer p.2.answer &&
          !(decide (p.1 ∈ (evalLoadSt (linesOf data) []).done)) &&
          (!isEvalError p.2.evaluation_results || retryEvalErrorsDefault)) = true) →
      isValidEval p.2.evaluation_results = true := by
    intro p hp hpred
    have hPp := hP p hp
    have hdone : p.1 ∈ (evalLoadSt (linesOf data) []).done := by
      by_contra hnot
      apply hpred
      simp [hPp.2.1, hnot, hPp.2.2.2, retryEvalErrorsDefault]
    obtain ⟨r', hr', hv⟩ := (evalLoadSt_doneInv _ _ p.1).mp hdone
    have hg := (mem_iff_getRec (evalLoadSt_nodupKeys _ _) p).mp hp
    have he : p.2 = r' := Option.some.inj (hg.symm.trans hr')
    rwa [← he] at hv
  by_cases htasks : evalTasks (evalLoadSt (linesOf data) []) = []
  · have hres : runEvalStage runners evalApi dur fs out false none false none = fs := by
      unfold runEvalStage
      rw [hpre]
      simp [hload, htasks, helog]
    rw [hres]
    refine ⟨data, hout, hnd, ?_, hilog, helog⟩
    · intro r hr
      have hI := hall r hr
      refine ⟨hI.1.1, hI.2, ?_⟩
      have hgr : getRec (evalLoadSt (linesOf data) []).map r.sample_id =
          some r := evalLoadSt_getRec_of_nodup hnd hr hI.1.1
      have hmem : (r.sample_id, r) ∈ (evalLoadSt (linesOf data) []).map :=
        (mem_iff_getRec (evalLoadSt_nodupKeys _ _) (r.sample_id, r)).mpr hgr
      unfold evalTasks evalTasksWith at htasks
      have hfil := List.map_eq_nil_iff.mp htasks
      have hpred := List.filter_eq_nil_iff.mp hfil (r.sample_id, r) hmem
      exact hpredfalse_eval (r.sample_id, r) hmem hpred
  · have hTe : (evalTasks (evalLoadSt (linesOf data) [])).isEmpty = false :=
      List.isEmpty_eq_false.mpr htasks
    have hmne : (evalLoadSt (linesOf data) []).map ≠ [] := by
      intro hnil
      apply htasks
      unfold evalTasks evalTasksWith
      rw [hnil]
      rfl
    have hres : runEvalStage runners evalApi dur fs out false none false none =
        mergeEvalLogToMain
          ((runEvalWorkers runners evalApi dur fs (evalLogPath out)
            (evalLoadSt (linesOf data) []).map
            (evalTasks (evalLoadSt (linesOf data) []))).1) out
          ((runEvalWorkers runners evalApi dur fs (evalLogPath out)
            (evalLoadSt (linesOf data) []).map
            (evalTasks (evalLoadSt (linesOf data) []))).2) none := by
      unfold runEvalStage
      rw [hpre]
      simp [hload, hTe]
    have hM : ∀ p ∈ (runEvalWorkers runners evalApi dur fs (evalLogPath out)
        (evalLoadSt (linesOf data) []).map
        (evalTasks (evalLoadSt (linesOf data) []))).2,
        p.2.sample_id ≠ "" ∧ isValidAnswer p.2.answer = true ∧
        isValidEval p.2.evaluation_results = true := by
      refine workerFold_entries (evalWorker runners evalApi dur) (evalLogPath out)
        (fun t => rfl)
        (evalTasks (evalLoadSt (linesOf data) []))
        fs (evalLoadSt (linesOf data) []).map
        (evalLoadSt_nodupKeys _ _) (evalLoadSt_wellKeyed _ _)
        (fun r => r.sample_id ≠ "" ∧ isValidAnswer r.answer = true ∧
          isValidEval r.evaluation_results = true) ?_ ?_
      · intro p hp hno
        have hPp := hP p hp
        refine ⟨hPp.1, hPp.2.1, ?_⟩
        apply hpredfalse_eval p hp
        intro hpred
        apply hno p.2 ?_ ((evalLoadSt_wellKeyed _ _ p hp).2)
        unfold evalTasks evalTasksWith
        exact List.mem_map.mpr ⟨p, List.mem_filter.mpr ⟨hp, hpred⟩, rfl⟩
      · intro t ht
        have hex : ∃ p ∈ (evalLoadSt (linesOf data) []).map, p.2 = t := by
          unfold evalTasks evalTasksWith at ht
          obtain ⟨p, hpf, hps⟩ := List.mem_map.mp ht
          exact ⟨p, List.mem_of_mem_filter hpf, hps⟩
        obtain ⟨p, hpm, hpt⟩ := hex
        have hPp := hP p hpm
        rw [hpt] at hPp
        obtain ⟨v, hv, hvv⟩ := hapi t
        rw [evalWorker_ready hPp.2.2.1 hv]
        exact ⟨hPp.1, hPp.2.1, hvv⟩
    have hMne : (runEvalWorkers runners evalApi dur fs (evalLogPath out)
        (evalLoadSt (linesOf data) []).map
        (evalTasks (evalLoadSt (linesOf data) []))).2 ≠ [] :=
      workerFold_map_ne_nil (evalWorker runners evalApi dur) (evalLogPath out)
        _ fs _ hmne
    obtain ⟨ho1, ho2, ho3, ho4⟩ :=
      mergeEval_none_pointwise
        ((runEvalWorkers runners evalApi dur fs (evalLogPath out)
          (evalLoadSt (linesOf data) []).map
          (evalTasks (evalLoadSt (linesOf data) []))).1) out
        ((runEvalWorkers runners evalApi dur fs (evalLogPath out)
          (evalLoadSt (linesOf data) []).map
          (evalTasks (evalLoadSt (linesOf data) []))).2) hMne
    rw [hres]
    have hInferNe1 : inferLogPath out ≠ evalLogPath out :=
      append_ne_of_length_ne out (by decide)
    refine ⟨((runEvalWorkers runners evalApi dur fs (evalLogPath out)
        (evalLoadSt (linesOf data) []).map
        (evalTasks (evalLoadSt (linesOf data) []))).2).map Prod.snd,
      ho1, ?_, ?_, ?_, ho2⟩
    · rw [List.map_map]
      have hwk2 : WellKeyed ((runEvalWorkers runners evalApi dur fs (evalLogPath out)
          (evalLoadSt (linesOf data) []).map
          (evalTasks (evalLoadSt (linesOf data) []))).2) :=
        workerFold_wellKeyed (evalWorker runners evalApi dur)
          (evalLogPath out) (fun t => rfl)
          (evalTasks (evalLoadSt (linesOf data) []))
          fs (evalLoadSt (linesOf data) []).map
          (evalLoadSt_wellKeyed _ _)
      have hnd2 : (((runEvalWorkers runners evalApi dur fs (evalLogPath out)
          (evalLoadSt (linesOf data) []).map
          (evalTasks (evalLoadSt (linesOf data) []))).2).map Prod.fst).Nodup :=
        workerFold_nodupKeys (evalWorker runners evalApi dur) (evalLogPath out)
          _ fs _ (evalLoadSt_nodupKeys _ _)
      rw [show (Record.sample_id ∘ Prod.snd) =
          (fun p : String × Record => p.2.sample_id) from rfl]
      rw [wellKeyed_ids_eq_keys hwk2]
      exact hnd2
    · intro r hr
      obtain ⟨p, hpM, hps⟩ := List.mem_map.mp hr
      exact hps ▸ hM p hpM
    · rw [ho4 (inferLogPath out) (inferLogPath_ne_self out) hInferNe1
        (inferLogPath_ne_tmpPath out)]
      have hfs2 : (runEvalWorkers runners evalApi dur fs (evalLogPath out)
          (evalLoadSt (linesOf data) []).map
          (evalTasks (evalLoadSt (linesOf data) []))).1 (inferLogPath out)
          = fs (inferLogPath out) :=
        workerFold_fs_other (evalWorker runners evalApi dur) (evalLogPath out)
          (evalTasks (evalLoadSt (linesOf data) [])) fs
          (evalLoadSt (linesOf data) []).map hInferNe1
      rw [hfs2]
      exact hilog

/-- On an end-state store the inference stage is a no-op: the loader
succeeds and finds no record requiring processing. -/
theorem endGood_infer_noop (runners : String → Bool)
    (api : Record → Except String JVal) (dur : Record → ℚ) (out : String)
    (fs : FS) (h : EndGood fs out) :
    runInferStage runners api dur fs out false none = fs ∧
    ∃ st, loadInferFS fs out false = some st ∧ inferTasks st = [] := by
  obtain ⟨data, hout, hnd, hall, hilog, helog⟩ := h
  have hlines : (fs.linesAt out).getD [] = linesOf data := by
    unfold FS.linesAt
    rw [hout]
    rfl
  have hlogl : (fs.linesAt (inferLogPath out)).getD [] = ([] : List Line) := by
    unfold FS.linesAt
    rw [hilog]
    rfl
  have hload : loadInferFS fs out false =
      some (inferLoadSt (linesOf data) []) := by
    unfold loadInferFS
    rw [hlines, hlogl, hout]
    simp
  have htasks : inferTasks (inferLoadSt (linesOf data) []) = [] := by
    unfold inferTasks inferTasksWith
    apply List.map_eq_nil_iff.mpr
    apply List.filter_eq_nil_iff.mpr
    intro p hp
    have h1 := inferLoadSt_entry_mem hp
    rw [List.append_nil] at h1
    have hpm : p.2 ∈ data := by
      have h2 := mem_recsOf.mpr h1
      rwa [recsOf_linesOf] at h2
    have hg := (mem_iff_getRec (inferLoadSt_nodupKeys _ _) p).mp hp
    have hva : isValidAnswer p.2.answer = true := (hall p.2 hpm).2.1
    have hdone : p.1 ∈ (inferLoadSt (linesOf data) []).done :=
      (inferLoadSt_doneInv _ _ p.1).mpr ⟨p.2, hg, hva⟩
    simp [hdone]
  have hres : runInferStage runners api dur fs out false none = fs := by
    unfold runInferStage
    rw [hload]
    simp [htasks, hilog]
  exact ⟨hres, inferLoadSt (linesOf data) [], hload, htasks⟩

/-- On an end-state store the evaluation stage is a no-op: the pre-check
passes, the loader succeeds, and no record requires processing. -/
theorem endGood_eval_noop (runners : String → Bool)
    (evalApi : Record → Except String JVal) (dur : Record → ℚ) (out : String)
    (fs : FS) (h : EndGood fs out) :
    runEvalStage runners evalApi dur fs out false none false none = fs ∧
    ∃ st, loadEvalFS fs out false = some st ∧ evalTasks st = [] := by
  obtain ⟨data, hout, hnd, hall, hilog, helog⟩ := h
  have hpre : evalPreCheck fs out false none = .go fs := by
    unfold evalPreCheck
    rw [hilog]
    rfl
  have hlines : (fs.linesAt out).getD [] = linesOf data := by
    unfold FS.linesAt
    rw [hout]
    rfl
  have hlogl : (fs.linesAt (evalLogPath out)).getD [] = ([] : List Line) := by
    unfold FS.linesAt
    rw [helog]
    rfl
  have hload : loadEvalFS fs out false =
      some (evalLoadSt (linesOf data) []) := by
    unfold loadEvalFS
    rw [hlines, hlogl, hout]
    simp
  have hmemd : ∀ {r : Record}, Line.obj r ∈ linesOf data → r ∈ data := by
    intro r hr
    have h2 := mem_recsOf.mpr hr
    rwa [recsOf_linesOf] at h2
  have htasks : evalTasks (evalLoadSt (linesOf data) []) = [] := by
    unfold evalTasks evalTasksWith
    apply List.map_eq_nil_iff.mpr
    apply List.filter_eq_nil_iff.mpr
    intro p hp
    have hve : isValidEval p.2.evaluation_results = true := by
      obtain ⟨b, c, hb, hc, he⟩ := evalLoadSt_entry_shape hp
      rw [List.append_nil] at hc
      rw [he]
      exact (hall c (hmemd hc)).2.2
    have hg := (mem_iff_getRec (evalLoadSt_nodupKeys _ _) p).mp hp
    have hdone : p.1 ∈ (evalLoadSt (linesOf data) []).done :=
      (evalLoadSt_doneInv _ _ p.1).mpr ⟨p.2, hg, hve⟩
    simp [hdone]
  have hres : runEvalStage runners evalApi dur fs out false none false none = fs := by
    unfold runEvalStage
    rw [hpre]
    simp [hload, htasks, helog]
  exact ⟨hres, evalLoadSt (linesOf data) [], hload, htasks⟩

/-- When the generate stage leaves a record store in place, `run_all`
proceeds through inference, evaluation and analysis. -/
theorem runAll_go (runners : String → Bool) (api evalApi : Record → Except String JVal)
    (idur edur : Record → ℚ) (registry : String → Option (List String))
    (fs : FS) (out reportPath : String) (initial : List Record)
    (hsome : (generateStage fs out initial none out).isNone = false) :
    runAll runners api evalApi idur edur registry fs out reportPath initial =
      analyzeStage (runEvalStage runners evalApi edur
        (runInferStage runners api idur (generateStage fs out initial none)
          out false none) out false none false none)
        out reportPath registry none := by
  unfold runAll
  simp [hsome]

/-- The record generated by the prompt stage in the idempotence witness
run. -/
def c7Rec : Record :=
  { sample_id := "s", prompt := some (.jstr "p"), answer := none,
    evaluation_results := none, task := "t", task_path := some "tp",
    inference_duration_sec := none, evaluation_duration_sec := none }

/-- C7: running the full pipeline a second time immediately after a
fully successful, uninterrupted and failure-free run leaves the record
store contents identical: the generate stage skips writing because the
store exists, and the inference and evaluation loaders each find no task
requiring processing. -/
theorem c7_idempotent_rerun (runners : String → Bool)
    (api evalApi : Record → Except String JVal) (idur edur : Record → ℚ)
    (registry : String → Option (List String)) (out reportPath : String)
    (initial : List Record)
    (hinit : ∀ r ∈ initial, InitOK runners r)
    (hnd : (initial.map Record.sample_id).Nodup)
    (hapiI : ∀ r, ∃ v, api r = .ok v ∧ isValidAnswer (some v) = true)
    (hapiE : ∀ r, ∃ v, evalApi r = .ok v ∧ isValidEval (some v) = true)
    (hrp1 : out ≠ reportPath) (hrt1 : out ≠ tmpPath reportPath)
    (hrp2 : inferLogPath out ≠ reportPath)
    (hrt2 : inferLogPath out ≠ tmpPath reportPath)
    (hrp3 : evalLogPath out ≠ reportPath)
    (hrt3 : evalLogPath out ≠ tmpPath reportPath) :
    runAll runners api evalApi idur edur registry
        (runAll runners api evalApi idur edur registry emptyFS out reportPath initial)
        out reportPath initial out =
      runAll runners api evalApi idur edur registry emptyFS out reportPath initial out ∧
    generateStage
        (runAll runners api evalApi idur edur registry emptyFS out reportPath initial)
        out initial none =
      runAll runners api evalApi idur edur registry emptyFS out reportPath initial ∧
    (∃ st, loadInferFS
        (runAll runners api evalApi idur edur registry emptyFS out reportPath initial)
        out false = some st ∧ inferTasks st = []) ∧
    (∃ st, loadEvalFS
        (runAll runners api evalApi idur edur registry emptyFS out reportPath initial)
        out false = some st ∧ evalTasks st = []) := by
  have hgen1 : generateStage emptyFS out initial none =
      ((emptyFS.set (tmpPath out) (some (.jsonl (linesOf initial)))).set
        (tmpPath out) none).set out (some (.jsonl (linesOf initial))) := rfl
  have hf1out : generateStage emptyFS out initial none out =
      some (.jsonl (linesOf initial)) := by
    rw [hgen1, FS.set_self]
  have hf1i : generateStage emptyFS out initial none (inferLogPath out) = none := by
    rw [hgen1, FS.set_ne _ _ (inferLogPath_ne_self out),
      FS.set_ne _ _ (inferLogPath_ne_tmpPath out),
      FS.set_ne _ _ (inferLogPath_ne_tmpPath out)]
    rfl
  have hf1e : generateStage emptyFS out initial none (evalLogPath out) = none := by
    rw [hgen1, FS.set_ne _ _ (evalLogPath_ne_self out),
      FS.set_ne _ _ (evalLogPath_ne_tmpPath out),
      FS.set_ne _ _ (evalLogPath_ne_tmpPath out)]
    rfl
  have hmid := runInferStage_establishes runners api idur out hapiI
    (generateStage emptyFS out initial none) initial hf1out hf1i hf1e hinit hnd
  have hend3 := runEvalStage_establishes runners evalApi edur out hapiE
    (runInferStage runners api idur (generateStage emptyFS out initial none)
      out false none) hmid
  obtain ⟨d3, h3out, h3nd, h3all, h3i, h3e⟩ := hend3
  have hS1eq := runAll_go runners api evalApi idur edur registry emptyFS
    out reportPath initial (by rw [hf1out]; rfl)
  have hEndS1 : EndGood (runAll runners api evalApi idur edur registry emptyFS
      out reportPath initial) out := by
    rw [hS1eq]
    exact ⟨d3,
      by rw [analyzeStage_other _ out reportPath registry none out hrp1 hrt1]
         exact h3out,
      h3nd, h3all,
      by rw [analyzeStage_other _ out reportPath registry none
           (inferLogPath out) hrp2 hrt2]
         exact h3i,
      by rw [analyzeStage_other _ out reportPath registry none
           (evalLogPath out) hrp3 hrt3]
         exact h3e⟩
  obtain ⟨hIeq, hIex⟩ := endGood_infer_noop runners api idur out _ hEndS1
  obtain ⟨hEeq, hEex⟩ := endGood_eval_noop runners evalApi edur out _ hEndS1
  obtain ⟨d1, hS1out, hS1nd, hS1all, hS1i, hS1e⟩ := hEndS1
  have hgen2 : generateStage (runAll runners api evalApi idur edur registry emptyFS
      out reportPath initial) out initial none =
      runAll runners api evalApi idur edur registry emptyFS out reportPath initial := by
    unfold generateStage
    rw [hS1out]
    rfl
  have hrun2 := runAll_go runners api evalApi idur edur registry
    (runAll runners api evalApi idur edur registry emptyFS out reportPath initial)
    out reportPath initial (by rw [hgen2, hS1out]; rfl)
  refine ⟨?_, hgen2, hIex, hEex⟩
  rw [hrun2, hgen2, hIeq, hEeq]
  exact analyzeStage_other _ out reportPath registry none out hrp1 hrt1

/-- Witness for C7 at a concrete one-record pipeline run. -/
theorem c7_witness :
    runAll (fun _ => true) (fun _ => Except.ok (JVal.jstr "ans"))
        (fun _ => Except.ok (JVal.jobj [("score", JLeaf.lnum 1)]))
        (fun _ => (1 : ℚ)) (fun _ => (1 : ℚ)) (fun _ => none)
        (runAll (fun _ => true) (fun _ => Except.ok (JVal.jstr "ans"))
          (fun _ => Except.ok (JVal.jobj [("score", JLeaf.lnum 1)]))
          (fun _ => (1 : ℚ)) (fun _ => (1 : ℚ)) (fun _ => none)
          emptyFS "o" "r" [c7Rec]) "o" "r" [c7Rec] "o" =
      runAll (fun _ => true) (fun _ => Except.ok (JVal.jstr "ans"))
        (fun _ => Except.ok (JVal.jobj [("score", JLeaf.lnum 1)]))
        (fun _ => (1 : ℚ)) (fun _ => (1 : ℚ)) (fun _ => none)
        emptyFS "o" "r" [c7Rec] "o" :=
  (c7_idempotent_rerun (fun _ => true) (fun _ => Except.ok (JVal.jstr "ans"))
    (fun _ => Except.ok (JVal.jobj [("score", JLeaf.lnum 1)]))
    (fun _ => (1 : ℚ)) (fun _ => (1 : ℚ)) (fun _ => none) "o" "r" [c7Rec]
    (by intro r hr
        rw [List.mem_singleton] at hr
        subst hr
        exact ⟨by decide, by decide, by decide⟩)
    (by decide)
    (fun r => ⟨JVal.jstr "ans", rfl, by decide⟩)
    (fun r => ⟨JVal.jobj [("score", JLeaf.lnum 1)], rfl, by decide⟩)
    (by decide) (by decide) (by decide) (by decide) (by decide) (by decide)).1

end LongWeave
